import Mathlib

/-!
# The calculator of `src/script.js` and `src/index.js`

A shallow embedding of the class `Calculator` (src/script.js) and of the
function-based calculator (src/index.js, namespace `Index`), together with the
part of the JavaScript runtime they rely on: Number values (IEEE-754 binary64),
`parseFloat`, `Number(...)`, `isNaN`, `isFinite`, `Math.round`, the arithmetic
operators and the conversions `toString` and `toExponential(6)`.

Strings are lists of characters, one element per UTF-16 code unit; every string
the calculator builds itself is ASCII.
-/

/-- A JavaScript string, one `Char` per code unit. -/
abbrev Str := List Char

namespace JS

/-! ## Number values -/

/-- A Number value: NaN, an infinity, or a finite binary64 value given by its
exact rational value. The two zeros are identified: the calculator never
observes the sign of a zero (both print as "0", both satisfy `=== 0`, and a
division by either is refused before it is carried out). -/
inductive Number where
  | nan
  | inf (neg : Bool)
  | fin (q : ℚ)
  deriving DecidableEq, Repr

/-- The rational `2 ^ e`. -/
def pow2 (e : Int) : ℚ :=
  if 0 ≤ e then ((2 ^ e.toNat : Nat) : ℚ) else 1 / ((2 ^ (-e).toNat : Nat) : ℚ)

/-- The rational `10 ^ e`. -/
def pow10 (e : Int) : ℚ :=
  if 0 ≤ e then ((10 ^ e.toNat : Nat) : ℚ) else 1 / ((10 ^ (-e).toNat : Nat) : ℚ)

/-- Halve `n` until it drops below `2`, at most `fuel` times, counting the steps. -/
def log2Aux : Nat → Nat → Nat
  | 0, _ => 0
  | fuel + 1, n => if n < 2 then 0 else log2Aux fuel (n / 2) + 1

/-- Floor of the binary logarithm of a positive natural number. -/
def log2 (n : Nat) : Nat := log2Aux n n

/-- Binary exponent of a positive rational: the `e` with `2 ^ e ≤ a < 2 ^ (e + 1)`. -/
def binExp (a : ℚ) : Int :=
  let g : Int := (log2 a.num.natAbs : Int) - (log2 a.den : Int)
  if pow2 g ≤ a then g else g - 1

/-- Nearest integer, ties to even. -/
def roundHalfEven (a : ℚ) : Int :=
  let f : Int := ⌊a⌋
  let r : ℚ := a - f
  if r < 1 / 2 then f
  else if 1 / 2 < r then f + 1
  else if f % 2 = 0 then f else f + 1

/-- The Number value for a real: round to nearest binary64 (53-bit significand,
least exponent `-1074`), ties to even, overflowing to an infinity. -/
def toDouble (q : ℚ) : Number :=
  if q = 0 then .fin 0
  else
    let a := |q|
    let e := max (binExp a - 52) (-1074)
    let r : ℚ := (roundHalfEven (a / pow2 e) : ℚ) * pow2 e
    if pow2 1024 ≤ r then .inf (decide (q < 0))
    else .fin (if q < 0 then -r else r)

/-- Decimal digits of a natural number, most significant first. -/
def decDigits (n : Nat) : Str := Nat.toDigits 10 n

/-- Decimal exponent of a positive rational: the `n` with `10 ^ (n - 1) ≤ a < 10 ^ n`. -/
def decExp (a : ℚ) : Int :=
  if 1 ≤ a then ((decDigits ⌊a⌋.toNat).length : Int)
  else 1 - ((decDigits (⌈1 / a⌉.toNat - 1)).length : Int)

/-! ## Arithmetic: the exact result, rounded -/

/-- The operator `+` on Numbers. -/
def Number.add : Number → Number → Number
  | .nan, _ => .nan
  | _, .nan => .nan
  | .inf a, .inf b => if a = b then .inf a else .nan
  | .inf a, .fin _ => .inf a
  | .fin _, .inf b => .inf b
  | .fin x, .fin y => toDouble (x + y)

/-- Unary minus. -/
def Number.neg : Number → Number
  | .nan => .nan
  | .inf a => .inf (!a)
  | .fin x => .fin (-x)

/-- The operator `-` on Numbers. -/
def Number.sub (x y : Number) : Number := x.add y.neg

/-- The operator `*` on Numbers. -/
def Number.mul : Number → Number → Number
  | .nan, _ => .nan
  | _, .nan => .nan
  | .inf a, .inf b => .inf (a != b)
  | .inf a, .fin y => if y = 0 then .nan else .inf (a != decide (y < 0))
  | .fin x, .inf b => if x = 0 then .nan else .inf (decide (x < 0) != b)
  | .fin x, .fin y => toDouble (x * y)

/-- The operator `/` on Numbers. A zero divisor is taken as `+0`; `calculate`
never divides by zero. -/
def Number.div : Number → Number → Number
  | .nan, _ => .nan
  | _, .nan => .nan
  | .inf _, .inf _ => .nan
  | .inf a, .fin y => .inf (a != decide (y < 0))
  | .fin _, .inf _ => .fin 0
  | .fin x, .fin y =>
    if y = 0 then (if x = 0 then .nan else .inf (decide (x < 0)))
    else toDouble (x / y)

/-- The global `isNaN`, on a Number. -/
def isNaN : Number → Bool
  | .nan => true
  | _ => false

/-- The global `isFinite`, on a Number. -/
def isFinite : Number → Bool
  | .fin _ => true
  | _ => false

/-- `Math.round`: the nearest integer, ties towards `+∞`. -/
def Math.round : Number → Number
  | .fin x => .fin (⌊x + 1 / 2⌋ : Int)
  | v => v

/-! ## Reading numerals -/

/-- White space and line terminators, as stripped by `parseFloat` and `Number`. -/
def isWhiteSpace (c : Char) : Bool :=
  c.toNat ∈ [0x9, 0xA, 0xB, 0xC, 0xD, 0x20, 0xA0, 0x1680, 0x2028, 0x2029, 0x202F, 0x205F,
    0x3000, 0xFEFF] || (0x2000 ≤ c.toNat && c.toNat ≤ 0x200A)

/-- Value of a string of decimal digits. -/
def digitsValue (ds : Str) : Nat := ds.foldl (fun n c => 10 * n + (c.toNat - 48)) 0

/-- An optional ExponentPart at the front of `r`: its value and what follows it.
An incomplete exponent (`e` without digits) is not consumed. -/
def scanExponent (r : Str) : Int × Str :=
  match r with
  | c :: t =>
    if c = 'e' ∨ c = 'E' then
      match t with
      | '+' :: u =>
        if u.takeWhile Char.isDigit = [] then (0, r)
        else ((digitsValue (u.takeWhile Char.isDigit) : Int), u.dropWhile Char.isDigit)
      | '-' :: u =>
        if u.takeWhile Char.isDigit = [] then (0, r)
        else (-(digitsValue (u.takeWhile Char.isDigit) : Int), u.dropWhile Char.isDigit)
      | u =>
        if u.takeWhile Char.isDigit = [] then (0, r)
        else ((digitsValue (u.takeWhile Char.isDigit) : Int), u.dropWhile Char.isDigit)
    else (0, r)
  | [] => (0, r)

/-- The mathematical value of a decimal literal: `Infinity` or a real number. -/
inductive MV where
  | infinity
  | real (q : ℚ)
  deriving DecidableEq, Repr

/-- The Number value for a mathematical value with a sign. -/
def MV.toNumber (neg : Bool) : MV → Number
  | .infinity => .inf neg
  | .real q => if neg then (toDouble q).neg else toDouble q

/-- The longest StrUnsignedDecimalLiteral at the front of `s`: its mathematical
value and what follows it, or `none` when no prefix of `s` is such a literal. -/
def scanUnsigned (s : Str) : Option (MV × Str) :=
  if "Infinity".toList.isPrefixOf s then some (.infinity, s.drop 8)
  else
    let ip := s.takeWhile Char.isDigit
    let r1 := s.dropWhile Char.isDigit
    let fp := match r1 with
      | '.' :: t => t.takeWhile Char.isDigit
      | _ => []
    let r2 := match r1 with
      | '.' :: t => t.dropWhile Char.isDigit
      | _ => r1
    if ip = [] ∧ fp = [] then none
    else
      let ex := scanExponent r2
      some (.real ((digitsValue (ip ++ fp) : ℚ) * pow10 (ex.1 - fp.length)), ex.2)

/-- The longest StrDecimalLiteral (an optionally signed literal) at the front of
`s`: whether it is negative, its unsigned value, and what follows it. -/
def scanDecimal : Str → Option (Bool × MV × Str)
  | '+' :: t => (scanUnsigned t).map fun p => (false, p.1, p.2)
  | '-' :: t => (scanUnsigned t).map fun p => (true, p.1, p.2)
  | s => (scanUnsigned s).map fun p => (false, p.1, p.2)

/-- The global `parseFloat`: skip leading white space, read the longest decimal
literal, ignore the rest; NaN when there is none. -/
def parseFloat (s : Str) : Number :=
  match scanDecimal (s.dropWhile isWhiteSpace) with
  | some (neg, mv, _) => mv.toNumber neg
  | none => .nan

/-- Value of a digit in a radix up to 16, `none` for any other character. -/
def radixDigit (radix : Nat) (c : Char) : Option Nat :=
  let v : Option Nat :=
    if c.isDigit then some (c.toNat - 48)
    else if 'a' ≤ c ∧ c ≤ 'f' then some (c.toNat - 87)
    else if 'A' ≤ c ∧ c ≤ 'F' then some (c.toNat - 55)
    else none
  v.bind fun d => if d < radix then some d else none

/-- Value of a non-empty string of digits in the given radix. -/
def radixValue (radix : Nat) (ds : Str) : Option Nat :=
  if ds = [] then none
  else ds.foldl (fun acc c => acc.bind fun n => (radixDigit radix c).map fun d => radix * n + d)
    (some 0)

/-- A NonDecimalIntegerLiteral (`0x`, `0o`, `0b`, either case) spanning all of `s`. -/
def scanNonDecimal : Str → Option Nat
  | '0' :: c :: t =>
    if c = 'x' ∨ c = 'X' then radixValue 16 t
    else if c = 'o' ∨ c = 'O' then radixValue 8 t
    else if c = 'b' ∨ c = 'B' then radixValue 2 t
    else none
  | _ => none

/-- Remove white space at both ends. -/
def trim (s : Str) : Str :=
  ((s.dropWhile isWhiteSpace).reverse.dropWhile isWhiteSpace).reverse

/-- The conversion `Number(s)` of a string: the whole trimmed string must be a
numeric literal; the empty string is `0`; anything else is NaN. -/
def toNumber (s : Str) : Number :=
  let t := trim s
  if t = [] then .fin 0
  else
    match scanNonDecimal t with
    | some n => toDouble n
    | none =>
      match scanDecimal t with
      | some (neg, mv, []) => mv.toNumber neg
      | _ => .nan

/-! ## Printing Numbers -/

/-- The candidate with `k` significant digits for `Number::toString` of a
positive finite `x`: an integer `s` and exponent `n` with
`10 ^ (k - 1) ≤ s < 10 ^ k` such that `s * 10 ^ (n - k)` rounds to `x`, the
closest to `x` when both neighbours of `x` qualify; `none` when no `k`-digit
decimal rounds to `x`. -/
def shortest (x : ℚ) (k : Nat) : Option (Nat × Int) :=
  let n := decExp x
  let scaled := x / pow10 (n - k)
  let lo : Int := ⌊scaled⌋
  let hi : Int := lo + 1
  let okLo := decide (toDouble (lo * pow10 (n - k)) = .fin x)
  let okHi := decide (toDouble (hi * pow10 (n - k)) = .fin x)
  let dLo := scaled - lo
  let dHi := (hi : ℚ) - scaled
  let pick : Option Int :=
    if okLo && okHi then
      (if dLo < dHi then some lo else if dHi < dLo then some hi
       else if lo % 2 = 0 then some lo else some hi)
    else if okLo then some lo
    else if okHi then some hi
    else none
  pick.map fun s => if s = (10 : Int) ^ k then (10 ^ (k - 1), n + 1) else (s.toNat, n)

/-- Search for the least number of digits `k` that identifies `x`, trying
`k, k + 1, …`; returns `(k, s, n)`. Seventeen digits identify every binary64
value, so the search started at `1` with `17` steps ends in its second case. -/
def shortestFrom (x : ℚ) : Nat → Nat → (Nat × Nat × Int)
  | 0, k => (k, ⌊x / pow10 (decExp x - k)⌋.toNat, decExp x)
  | fuel + 1, k =>
    match shortest x k with
    | some (s, n) => (k, s, n)
    | none => shortestFrom x fuel (k + 1)

/-- A run of `n` zeros. -/
def zeros (n : Nat) : Str := List.replicate n '0'

/-- The exponent suffix `e+N` or `e-N`. -/
def expSuffix (e : Int) : Str :=
  'e' :: (if 0 ≤ e then '+' else '-') :: decDigits e.natAbs

/-- `Number::toString` (radix 10) of a positive finite value. -/
def posToString (x : ℚ) : Str :=
  match shortestFrom x 17 1 with
  | (k, s, n) =>
    let ds := decDigits s
    if (k : Int) ≤ n ∧ n ≤ 21 then ds ++ zeros (n - k).toNat
    else if 0 < n ∧ n ≤ 21 then ds.take n.toNat ++ '.' :: ds.drop n.toNat
    else if -6 < n ∧ n ≤ 0 then '0' :: '.' :: (zeros (-n).toNat ++ ds)
    else if k = 1 then ds ++ expSuffix (n - 1)
    else ds.take 1 ++ '.' :: (ds.drop 1 ++ expSuffix (n - 1))

/-- The method `toString()` of a Number. -/
def Number.toString : Number → Str
  | .nan => "NaN".toList
  | .inf false => "Infinity".toList
  | .inf true => "-Infinity".toList
  | .fin x =>
    if x = 0 then ['0']
    else if x < 0 then '-' :: posToString (-x)
    else posToString x

/-- The method `toExponential(6)` of a Number: one digit, six fraction digits
(the nearest such decimal, ties upwards) and the exponent. -/
def Number.toExponential6 : Number → Str
  | .fin x =>
    let a := |x|
    let sign : Str := if x < 0 then ['-'] else []
    if a = 0 then "0.000000e+0".toList
    else
      let e0 := decExp a - 1
      let n0 : Int := ⌊a / pow10 (e0 - 6) + 1 / 2⌋
      let n : Nat := if n0 = 10 ^ 7 then 10 ^ 6 else n0.toNat
      let e : Int := if n0 = 10 ^ 7 then e0 + 1 else e0
      let m := decDigits n
      sign ++ m.take 1 ++ '.' :: (m.drop 1 ++ expSuffix e)
  | v => v.toString

end JS

open JS

/-! ## The class `Calculator` (src/script.js) -/

/-- The four state fields set by the constructor; `operation = none` stands
for `undefined`. -/
structure Calculator where
  currentOperand : Str
  previousOperand : Str
  operation : Option Str
  resetScreen : Bool
  deriving DecidableEq, Repr

/-- What one call leaves behind: the new state and the message handed to
`showError`, if it was called. -/
structure Outcome where
  state : Calculator
  shown : Option Str
  deriving DecidableEq, Repr

/-- The two lines written by `updateDisplay`. -/
structure Display where
  current : Str
  previous : Str
  deriving DecidableEq, Repr

namespace Calculator

/-- The field `maxInputLength`, set once by the constructor. -/
def maxInputLength : Nat := 15

/-- The state set by the constructor. -/
def initial : Calculator :=
  { currentOperand := ['0'], previousOperand := [], operation := none, resetScreen := false }

/-- The method `clear()`. -/
def clear (_c : Calculator) : Calculator :=
  { currentOperand := ['0'], previousOperand := [], operation := none, resetScreen := false }

/-- The method `handleNumber(number)`. -/
def handleNumber (c : Calculator) (number : Str) : Outcome :=
  let c1 : Calculator :=
    if c.resetScreen then { c with currentOperand := [], resetScreen := false } else c
  if c1.currentOperand = ['0'] ∧ number = ['0'] then ⟨c1, none⟩
  else if c1.currentOperand = ['0'] ∧ number ≠ ['.'] then
    ⟨{ c1 with currentOperand := number }, none⟩
  else if maxInputLength ≤ c1.currentOperand.length then
    ⟨c1, some "Input too long".toList⟩
  else ⟨{ c1 with currentOperand := c1.currentOperand ++ number }, none⟩

/-- The method `handleCalculationError(errorMessage)`: show the user message, then `clear()`. -/
def handleCalculationError (c : Calculator) (errorMessage : Str) : Outcome :=
  let userMessage : Str :=
    if errorMessage = "Division by zero".toList then "Cannot divide by zero".toList
    else if errorMessage = "Number too large".toList then "Number too large".toList
    else "Calculation error".toList
  ⟨clear c, some userMessage⟩

/-- The `switch` of `calculate()`: `.error m` is `throw new Error(m)`, `.ok none`
is the `return` of the default case, `.ok (some v)` the value assigned to
`computation`. -/
def compute (op : Str) (prev current : Number) : Except Str (Option Number) :=
  if op = ['+'] then .ok (some (prev.add current))
  else if op = ['-'] then .ok (some (prev.sub current))
  else if op = ['*'] then .ok (some (prev.mul current))
  else if op = ['÷'] then
    if current = .fin 0 then .error "Division by zero".toList
    else .ok (some (prev.div current))
  else .ok none

/-- The rounding step `Math.round(computation * 100000000) / 100000000`. -/
def round8 (computation : Number) : Number :=
  (Math.round (computation.mul (.fin 100000000))).div (.fin 100000000)

/-- The method `calculate()`. -/
def calculate (c : Calculator) : Outcome :=
  match c.operation with
  | none => ⟨c, none⟩
  | some op =>
    if c.resetScreen then ⟨c, none⟩
    else
      let prev := parseFloat c.previousOperand
      let current := parseFloat c.currentOperand
      if isNaN prev || isNaN current then ⟨c, none⟩
      else
        match compute op prev current with
        | .error m => handleCalculationError c m
        | .ok none => ⟨c, none⟩
        | .ok (some computation) =>
          if !isFinite computation then handleCalculationError c "Number too large".toList
          else
            ⟨{ currentOperand := (round8 computation).toString, operation := none,
               previousOperand := [], resetScreen := true }, none⟩

/-- Truthiness of the field `operation`: defined and not the empty string. -/
def truthy : Option Str → Bool
  | some (_ :: _) => true
  | _ => false

/-- The method `handleOperation(op)`; `op = "."` is the decimal point. -/
def handleOperation (c : Calculator) (op : Str) : Outcome :=
  if op = ['.'] then
    let c1 : Calculator :=
      if c.resetScreen then { c with currentOperand := ['0'], resetScreen := false } else c
    if '.' ∈ c1.currentOperand then ⟨c1, none⟩
    else ⟨{ c1 with currentOperand := c1.currentOperand ++ ['.'] }, none⟩
  else if c.currentOperand = [] ∧ c.previousOperand = [] then ⟨c, none⟩
  else
    let r : Outcome :=
      if c.previousOperand ≠ [] ∧ truthy c.operation = true ∧ c.resetScreen = false then
        calculate c
      else ⟨c, none⟩
    let s1 := r.state
    ⟨{ s1 with operation := some op, previousOperand := s1.currentOperand, resetScreen := true },
      r.shown⟩

/-- The method `delete()`; `slice(0, -1)` drops the last code unit. -/
def delete (c : Calculator) : Calculator :=
  if c.resetScreen then c
  else if c.currentOperand.length = 1 then { c with currentOperand := ['0'] }
  else { c with currentOperand := c.currentOperand.dropLast }

/-- A word character of a regular expression: `[A-Za-z0-9_]`. -/
def isWordChar (ch : Char) : Bool := ch.isAlphanum || ch = '_'

/-- The replacement `replace(/\B(?=(\d{3})+(?!\d))/g, ',')`, scanning `s` with
the character before it in `before`. A comma goes in front of a position when
the character before it is a word character and the maximal run of digits
starting there has a positive length divisible by 3. -/
def groupDigits (before : Option Char) : Str → Str
  | [] => []
  | ch :: t =>
    let run := ((ch :: t).takeWhile Char.isDigit).length
    let here : Bool :=
      (match before with
        | some b => isWordChar b
        | none => false) && decide (run ≠ 0) && decide (run % 3 = 0)
    if here then ',' :: ch :: groupDigits (some ch) t else ch :: groupDigits (some ch) t

/-- The method `formatDisplayNumber(number)`. -/
def formatDisplayNumber (number : Str) : Str :=
  if number = [] then []
  else
    let integerPart := number.takeWhile (fun ch => ch != '.')
    let decimalPart : Option Str :=
      match number.dropWhile (fun ch => ch != '.') with
      | [] => none
      | _ :: t => some (t.takeWhile (fun ch => ch != '.'))
    if 12 < integerPart.length then (toNumber number).toExponential6
    else
      match decimalPart with
      | some d => groupDigits none integerPart ++ '.' :: d
      | none => groupDigits none integerPart

/-- The method `getOperationSymbol(operation)`, for operations that are not
names of inherited object properties. -/
def getOperationSymbol (operation : Str) : Str :=
  if operation = ['*'] then ['×'] else operation

/-- The two texts `updateDisplay()` writes: the current line and the previous line. -/
def updateDisplay (c : Calculator) : Display :=
  { current := formatDisplayNumber c.currentOperand
    previous :=
      match c.operation with
      | some op => formatDisplayNumber c.previousOperand ++ ' ' :: getOperationSymbol op
      | none => if c.previousOperand ≠ [] then formatDisplayNumber c.previousOperand else [] }

end Calculator

/-! ## User actions -/

/-- The character of a digit key, `'0'` to `'9'`. -/
def digitChar (d : Fin 10) : Char := Char.ofNat (48 + d.val)

/-- The four operator keys. -/
inductive Operator where
  | add
  | subtract
  | multiply
  | divide
  deriving DecidableEq, Repr

/-- The `data-operation` string of an operator key. -/
def Operator.symbol : Operator → Str
  | .add => ['+']
  | .subtract => ['-']
  | .multiply => ['*']
  | .divide => ['÷']

/-- The six user actions. -/
inductive UserAction where
  | digit (d : Fin 10)
  | decimalPoint
  | operator (op : Operator)
  | equals
  | clear
  | delete
  deriving DecidableEq, Repr

namespace Calculator

/-- The dispatch of `handleButtonClick` and `handleKeyboardInput`: the state after one action. -/
def perform (c : Calculator) : UserAction → Calculator
  | .digit d => (handleNumber c [digitChar d]).state
  | .decimalPoint => (handleOperation c ['.']).state
  | .operator op => (handleOperation c op.symbol).state
  | .equals => (calculate c).state
  | .clear => clear c
  | .delete => delete c

/-- The state after a sequence of actions. -/
def run (c : Calculator) (actions : List UserAction) : Calculator := actions.foldl perform c

/-- The states the calculator can be in: those some sequence of actions leads to
from the state set by the constructor. -/
def Reachable (c : Calculator) : Prop := ∃ actions : List UserAction, run initial actions = c

end Calculator

/-! ## Reference notions used to state the properties -/

/-- The binary64 operation an operator key stands for. -/
def Operator.apply : Operator → Number → Number → Number
  | .add => Number.add
  | .subtract => Number.sub
  | .multiply => Number.mul
  | .divide => Number.div

/-- The exact operation on real numbers an operator key stands for. -/
def Operator.exact : Operator → ℚ → ℚ → ℚ
  | .add => fun a b => a + b
  | .subtract => fun a b => a - b
  | .multiply => fun a b => a * b
  | .divide => fun a b => a / b

/-- The real number a numeral denotes: the exact value of the decimal literal
that `parseFloat` reads, before it is rounded to a Number. -/
def numeralValue (s : Str) : Option ℚ :=
  match scanDecimal (s.dropWhile isWhiteSpace) with
  | some (neg, .real q, _) => some (if neg then -q else q)
  | _ => none

/-- A real number rounded to 8 decimal places, halves upwards. -/
def roundTo8 (q : ℚ) : ℚ := ((⌊q * 10 ^ 8 + 1 / 2⌋ : Int) : ℚ) / 10 ^ 8

namespace Calculator

/-- Exact rounding as the specification words it: the text `calculate()` leaves
in `currentOperand` denotes the exact value of `prev op cur`, rounded to 8
decimal places. -/
def ExactResult (c : Calculator) (op : Operator) : Prop :=
  ∃ p q : ℚ, numeralValue c.previousOperand = some p ∧
    numeralValue c.currentOperand = some q ∧
    numeralValue (calculate c).state.currentOperand = some (roundTo8 (op.exact p q))

/-- The state invariant behind the change of operator: the operand is never
empty, and right after an operator key the two operands coincide. -/
def Inv (c : Calculator) : Prop :=
  c.currentOperand ≠ [] ∧
    (c.operation ≠ none → c.resetScreen = true → c.previousOperand = c.currentOperand)

end Calculator

/-! ## The function-based version (src/index.js) -/

namespace Index

/-- The four variables of the calculator state in src/index.js. -/
structure State where
  currentOperand : Str
  previousOperand : Str
  operation : Option Str
  resetScreen : Bool
  deriving DecidableEq, Repr

/-- What one call leaves behind: the new state and the text handed to `alert`,
if it was called. -/
structure Result where
  state : State
  alerted : Option Str
  deriving DecidableEq, Repr

/-- The values the four variables are declared with. -/
def initial : State :=
  { currentOperand := ['0'], previousOperand := [], operation := none, resetScreen := false }

/-- The function `clear()`: it assigns three of the four variables. -/
def clear (s : State) : State :=
  { s with currentOperand := ['0'], previousOperand := [], operation := none }

/-- The function `deleteNumber()`. -/
def deleteNumber (s : State) : State :=
  if s.currentOperand.length = 1 then { s with currentOperand := ['0'] }
  else { s with currentOperand := s.currentOperand.dropLast }

/-- The function `appendNumber(number)`. -/
def appendNumber (s : State) (number : Str) : State :=
  let s1 : State :=
    if s.resetScreen then { s with currentOperand := [], resetScreen := false } else s
  if number = ['.'] ∧ '.' ∈ s1.currentOperand then s1
  else if s1.currentOperand = ['0'] ∧ number ≠ ['.'] then { s1 with currentOperand := number }
  else { s1 with currentOperand := s1.currentOperand ++ number }

/-- The last three assignments of `calculate()`. -/
def store (s : State) (computation : Number) : State :=
  { s with currentOperand := computation.toString, operation := none, previousOperand := [] }

/-- The function `calculate()`. -/
def calculate (s : State) : Result :=
  let prev := parseFloat s.previousOperand
  let current := parseFloat s.currentOperand
  if isNaN prev || isNaN current then ⟨s, none⟩
  else
    match s.operation with
    | none => ⟨s, none⟩
    | some op =>
      if op = ['+'] then ⟨store s (prev.add current), none⟩
      else if op = ['-'] then ⟨store s (prev.sub current), none⟩
      else if op = ['*'] then ⟨store s (prev.mul current), none⟩
      else if op = ['÷'] then
        if current = .fin 0 then ⟨clear s, some "Cannot divide by zero!".toList⟩
        else ⟨store s (prev.div current), none⟩
      else ⟨s, none⟩

/-- The function `chooseOperation(op)`. -/
def chooseOperation (s : State) (op : Str) : Result :=
  if s.currentOperand = [] then ⟨s, none⟩
  else
    let r : Result := if s.previousOperand ≠ [] then calculate s else ⟨s, none⟩
    let s1 := r.state
    ⟨{ s1 with operation := some op, previousOperand := s1.currentOperand, resetScreen := true },
      r.alerted⟩

/-- The dispatch of the click and keydown listeners: the state after one action. -/
def perform (s : State) : UserAction → State
  | .digit d => appendNumber s [digitChar d]
  | .decimalPoint => appendNumber s ['.']
  | .operator op => (chooseOperation s op.symbol).state
  | .equals => (calculate s).state
  | .clear => clear s
  | .delete => deleteNumber s

/-- The state after a sequence of actions. -/
def run (s : State) (actions : List UserAction) : State := actions.foldl perform s

end Index

/-! ## Notions used to state the properties of typed operands and of the display -/

/-- The text starts with a decimal digit. -/
def headDigit : Str → Bool
  | d :: _ => d.isDigit
  | [] => false

/-- A text `parseFloat` reads as a number: it starts with a digit, with `-` and
a digit, or with `Infinity` or `-Infinity`. -/
def numeralLike : Str → Bool
  | '-' :: t => headDigit t || "Infinity".toList.isPrefixOf t
  | s => headDigit s || "Infinity".toList.isPrefixOf s

/-- A typed operand: decimal digits with at most one `.`, starting with a digit. -/
def typedOperand (s : Str) : Bool :=
  headDigit s && s.all (fun ch => ch.isDigit || ch = '.') && decide (s.count '.' ≤ 1)

/-- The number of digit characters of a text. -/
def digitCount (s : Str) : Nat := s.countP Char.isDigit

/-- Grouping as the specification words it: a `,` in front of every digit that
has a positive multiple of 3 digits from itself to the right end, except in
front of the first digit (`front` tells that the text starts here). -/
def groupSpec (front : Bool) : Str → Str
  | [] => []
  | ch :: t =>
    if !front && (t.length + 1) % 3 == 0 then ',' :: ch :: groupSpec false t
    else ch :: groupSpec false t

namespace Calculator

/-- Whether an action calls `calculate()`: the equals key always does, an
operator key does under the guard of `handleOperation`. -/
def evaluates (c : Calculator) : UserAction → Bool
  | .equals => true
  | .operator _ =>
    decide (c.previousOperand ≠ [] ∧ truthy c.operation = true ∧ c.resetScreen = false)
  | _ => false

/-- The state after a sequence of actions none of which calls `calculate()`;
`none` as soon as one does. -/
def runTyping (c : Calculator) : List UserAction → Option Calculator
  | [] => some c
  | a :: rest => if evaluates c a then none else runTyping (perform c a) rest

/-- The states reached from the initial state without any evaluation. -/
def TypedReachable (c : Calculator) : Prop :=
  ∃ actions : List UserAction, runTyping initial actions = some c

/-- The state invariant of the class-based calculator: a typed operand is well
formed, both operands read as numbers when they are in use, and there is no
left operand without a pending operation. -/
def WF (c : Calculator) : Prop :=
  (c.resetScreen = false → typedOperand c.currentOperand = true) ∧
  numeralLike c.currentOperand = true ∧
  (c.operation ≠ none → numeralLike c.previousOperand = true) ∧
  (c.operation = none → c.previousOperand = [])

end Calculator

/-! ## Properties -/

namespace Calculator

/-- A digit key is not the decimal point. -/
theorem digitChar_ne_dot (d : Fin 10) : digitChar d ≠ '.' := by
  revert d; decide

/-- A digit key is a decimal digit. -/
theorem digitChar_isDigit (d : Fin 10) : (digitChar d).isDigit = true := by
  revert d; decide

/-- C10: `clear()` yields the state set by the constructor whatever the prior
state, hence it is idempotent. -/
theorem clear_yields_initial (c : Calculator) :
    clear c = initial ∧ clear (clear c) = clear c := by
  exact ⟨rfl, rfl⟩

/-- C6: `calculate()` changes nothing and shows no error when no operation is
pending or `resetScreen` is set. -/
theorem calculate_noop (c : Calculator) (h : c.operation = none ∨ c.resetScreen = true) :
    calculate c = ⟨c, none⟩ := by
  unfold calculate
  rcases h with h | h
  · rw [h]
  · cases hop : c.operation with
    | none => rfl
    | some op => simp [h]

/-- Witness for C6: `=` right after an operator (`5`, `+`, `=`) and a second `=`
after a result (`5`, `+`, `3`, `=`, `=`). -/
theorem calculate_noop_witness :
    calculate ⟨['5'], ['5'], some ['+'], true⟩ = ⟨⟨['5'], ['5'], some ['+'], true⟩, none⟩ ∧
    calculate ⟨['8'], [], none, true⟩ = ⟨⟨['8'], [], none, true⟩, none⟩ :=
  ⟨calculate_noop _ (Or.inr rfl), calculate_noop _ (Or.inl rfl)⟩

/-- C1: with `÷` pending, a typed right operand that parses to zero and a left
operand that parses, `calculate()` shows "Cannot divide by zero" and leaves the
initial state. -/
theorem calculate_division_by_zero (c : Calculator)
    (hop : c.operation = some ['÷']) (hrs : c.resetScreen = false)
    (hprev : isNaN (parseFloat c.previousOperand) = false)
    (hcur : parseFloat c.currentOperand = .fin 0) :
    calculate c = ⟨initial, some "Cannot divide by zero".toList⟩ := by
  unfold calculate
  rw [hop]
  simp only [hrs, hprev, hcur]
  simp [isNaN, compute, handleCalculationError, clear, initial]

/-- Witness for C1: the right operands "0", "0." and "0.00" under `1 ÷`. -/
theorem calculate_division_by_zero_witness :
    calculate ⟨['0'], ['1'], some ['÷'], false⟩
      = ⟨initial, some "Cannot divide by zero".toList⟩ ∧
    calculate ⟨['0', '.'], ['1'], some ['÷'], false⟩
      = ⟨initial, some "Cannot divide by zero".toList⟩ ∧
    calculate ⟨['0', '.', '0', '0'], ['1'], some ['÷'], false⟩
      = ⟨initial, some "Cannot divide by zero".toList⟩ :=
  ⟨calculate_division_by_zero _ rfl rfl (by decide!) (by decide!),
   calculate_division_by_zero _ rfl rfl (by decide!) (by decide!),
   calculate_division_by_zero _ rfl rfl (by decide!) (by decide!)⟩

/-- C8: `delete()` does nothing when `resetScreen` is set; otherwise a
one-character operand becomes "0" and a longer one loses its last character;
the other three fields never change. -/
theorem delete_effect (c : Calculator) :
    (c.resetScreen = true → delete c = c) ∧
    (c.resetScreen = false → c.currentOperand.length = 1 →
      (delete c).currentOperand = ['0']) ∧
    (c.resetScreen = false → 1 < c.currentOperand.length →
      ∃ last, c.currentOperand = (delete c).currentOperand ++ [last]) ∧
    (delete c).previousOperand = c.previousOperand ∧
    (delete c).operation = c.operation ∧
    (delete c).resetScreen = c.resetScreen := by
  refine ⟨?_, ?_, ?_, ?_, ?_, ?_⟩
  · intro h
    simp [delete, h]
  · intro h h1
    simp [delete, h, h1]
  · intro h h1
    have hne : c.currentOperand ≠ [] := by
      intro h0
      rw [h0] at h1
      simp at h1
    refine ⟨c.currentOperand.getLast hne, ?_⟩
    have h2 : c.currentOperand.length ≠ 1 := by omega
    simp [delete, h, h2, List.dropLast_append_getLast]
  · unfold delete
    split_ifs <;> rfl
  · unfold delete
    split_ifs <;> rfl
  · unfold delete
    split_ifs <;> rfl

/-- Witness for C8: Delete after `=` leaves "8" alone, Delete on "7" gives "0",
Delete on "12.5" gives "12.". -/
theorem delete_effect_witness :
    delete ⟨['8'], [], none, true⟩ = ⟨['8'], [], none, true⟩ ∧
    (delete ⟨['7'], [], none, false⟩).currentOperand = ['0'] ∧
    (∃ last, ['1', '2', '.', '5']
      = (delete ⟨['1', '2', '.', '5'], [], none, false⟩).currentOperand ++ [last]) :=
  ⟨(delete_effect ⟨['8'], [], none, true⟩).1 rfl,
   (delete_effect ⟨['7'], [], none, false⟩).2.1 rfl rfl,
   (delete_effect ⟨['1', '2', '.', '5'], [], none, false⟩).2.2.1 rfl (by decide)⟩

/-- C9: with `resetScreen` unset and 15 characters in `currentOperand`, a digit
shows "Input too long" and changes no field; with fewer than 15 characters, or
with `resetScreen` set, a digit shows no error. -/
theorem handleNumber_length_limit (c : Calculator) (d : Fin 10) :
    (c.resetScreen = false → c.currentOperand.length = maxInputLength →
      handleNumber c [digitChar d] = ⟨c, some "Input too long".toList⟩) ∧
    (c.currentOperand.length < maxInputLength ∨ c.resetScreen = true →
      (handleNumber c [digitChar d]).shown = none) := by
  constructor
  · intro hrs hlen
    have h0 : c.currentOperand ≠ ['0'] := by
      intro h
      rw [h] at hlen
      simp [maxInputLength] at hlen
    simp [handleNumber, hrs, h0, hlen]
  · intro h
    unfold handleNumber
    cases hrs : c.resetScreen with
    | true =>
      simp [maxInputLength]
    | false =>
      have hlt : c.currentOperand.length < maxInputLength := by
        rcases h with h | h
        · exact h
        · rw [hrs] at h
          exact absurd h (by decide)
      simp only [Bool.false_eq_true, if_false]
      split_ifs with h1 h2 h3
      · rfl
      · rfl
      · omega
      · rfl

/-- Witness for C9: a 16th digit is refused, a digit after "12" and a digit
after an operator are not. -/
theorem handleNumber_length_limit_witness :
    handleNumber ⟨"123456789012345".toList, [], none, false⟩ [digitChar 6]
      = ⟨⟨"123456789012345".toList, [], none, false⟩, some "Input too long".toList⟩ ∧
    (handleNumber ⟨['1', '2'], [], none, false⟩ [digitChar 6]).shown = none ∧
    (handleNumber ⟨"123456789012345".toList, "123456789012345".toList, some ['+'], true⟩
      [digitChar 6]).shown = none :=
  ⟨(handleNumber_length_limit ⟨"123456789012345".toList, [], none, false⟩ 6).1 rfl rfl,
   (handleNumber_length_limit ⟨['1', '2'], [], none, false⟩ 6).2 (Or.inl (by decide)),
   (handleNumber_length_limit
      ⟨"123456789012345".toList, "123456789012345".toList, some ['+'], true⟩ 6).2
      (Or.inr rfl)⟩


/-- The digit key `0` is the only one with the character `'0'`. -/
theorem digitChar_eq_zero (d : Fin 10) : digitChar d = '0' ↔ d = 0 := by
  revert d; decide

/-- Digits typed after an operand that is neither empty nor "0" are appended until the cap. -/
theorem run_digits_append (ds : List (Fin 10)) (c : Calculator)
    (hrs : c.resetScreen = false) (hne : c.currentOperand ≠ [])
    (h0 : c.currentOperand ≠ ['0']) (hlen : c.currentOperand.length ≤ maxInputLength) :
    run c (ds.map UserAction.digit) =
      { c with currentOperand :=
          (c.currentOperand ++ ds.map digitChar).take maxInputLength } := by
  induction ds generalizing c with
  | nil =>
    simp [run, List.take_of_length_le hlen]
  | cons d ds ih =>
    simp only [List.map_cons, run, List.foldl_cons]
    rw [show List.foldl perform (perform c (.digit d)) (List.map UserAction.digit ds)
        = run (perform c (.digit d)) (ds.map UserAction.digit) from rfl]
    by_cases hfull : maxInputLength ≤ c.currentOperand.length
    · have hstep : perform c (.digit d) = c := by
        simp [perform, handleNumber, hrs, h0, hfull]
      rw [hstep, ih c hrs hne h0 hlen]
      have heq : c.currentOperand.length = maxInputLength := le_antisymm hlen hfull
      simp [List.take_append_of_le_length, heq.symm]
    · have hstep : perform c (.digit d)
          = { c with currentOperand := c.currentOperand ++ [digitChar d] } := by
        simp [perform, handleNumber, hrs, h0, hfull]
      have hnz : c.currentOperand ++ [digitChar d] ≠ ['0'] := by
        intro h
        have := congrArg List.length h
        simp at this
        exact hne this
      have hle : (c.currentOperand ++ [digitChar d]).length ≤ maxInputLength := by
        simp at hfull ⊢
        omega
      rw [hstep, ih { c with currentOperand := c.currentOperand ++ [digitChar d] } hrs
        (by simp) hnz hle]
      simp

/-- Digits typed on the "0" placeholder. -/
theorem run_digits_from_zero (ds : List (Fin 10)) (c : Calculator)
    (hrs : c.resetScreen = false) (h0 : c.currentOperand = ['0']) :
    run c (ds.map UserAction.digit) =
      { c with currentOperand :=
          if (ds.map digitChar).dropWhile (fun ch => ch = '0') = [] then ['0']
          else ((ds.map digitChar).dropWhile (fun ch => ch = '0')).take maxInputLength } := by
  induction ds with
  | nil =>
    simp [run, ← h0]
  | cons d ds ih =>
    simp only [List.map_cons, run, List.foldl_cons]
    rw [show List.foldl perform (perform c (.digit d)) (List.map UserAction.digit ds)
        = run (perform c (.digit d)) (ds.map UserAction.digit) from rfl]
    by_cases hd : d = 0
    · have hstep : perform c (.digit d) = c := by
        subst hd
        simp [perform, handleNumber, hrs, h0, digitChar]
      have hc : digitChar d = '0' := (digitChar_eq_zero d).mpr hd
      rw [hstep, ih]
      simp [List.dropWhile_cons, hc]
    · have hc : digitChar d ≠ '0' := fun h => hd ((digitChar_eq_zero d).mp h)
      have hstep : perform c (.digit d) = { c with currentOperand := [digitChar d] } := by
        simp [perform, handleNumber, hrs, h0, hc, digitChar_ne_dot]
      rw [hstep, run_digits_append ds { c with currentOperand := [digitChar d] } hrs
        (by simp) (by simpa using hc) (by simp [maxInputLength])]
      simp [List.dropWhile_cons, hc]

/-- C5: from the initial state, typing digits only leaves in `currentOperand`
the typed text without its leading zeros, cut to its first 15 characters, or
"0" when nothing remains; the other fields keep their initial values. -/
theorem digits_typed_from_initial (ds : List (Fin 10)) :
    run initial (ds.map UserAction.digit) =
      { currentOperand :=
          if (ds.map digitChar).dropWhile (fun ch => ch = '0') = [] then ['0']
          else ((ds.map digitChar).dropWhile (fun ch => ch = '0')).take maxInputLength
        previousOperand := []
        operation := none
        resetScreen := false } :=
  run_digits_from_zero ds initial rfl rfl

end Calculator

namespace JS

/-- The digit loop of `Nat.toDigits` returns a non-empty list as soon as it runs
a step or starts from a non-empty list. -/
theorem toDigitsCore_ne_nil (b : Nat) :
    ∀ (fuel n : Nat) (ds : List Char), (fuel ≠ 0 ∨ ds ≠ []) → Nat.toDigitsCore b fuel n ds ≠ [] := by
  intro fuel
  induction fuel with
  | zero =>
    intro n ds h
    rcases h with h | h
    · exact absurd rfl h
    · simpa [Nat.toDigitsCore] using h
  | succ fuel ih =>
    intro n ds _
    unfold Nat.toDigitsCore
    simp only
    split_ifs
    · simp
    · exact ih _ _ (Or.inr (by simp))

/-- A natural number has at least one decimal digit. -/
theorem decDigits_ne_nil (n : Nat) : decDigits n ≠ [] :=
  toDigitsCore_ne_nil 10 (n + 1) n [] (Or.inl (by simp))

/-- The text of a positive Number is never empty. -/
theorem posToString_ne_nil (x : ℚ) : posToString x ≠ [] := by
  unfold posToString
  rcases shortestFrom x 17 1 with ⟨k, s, n⟩
  simp only
  split_ifs <;> simp [decDigits_ne_nil, expSuffix]

/-- The text of a Number is never empty. -/
theorem toString_ne_nil (x : Number) : x.toString ≠ [] := by
  cases x with
  | nan => decide
  | inf neg => cases neg <;> decide
  | fin q =>
    simp only [Number.toString]
    split_ifs
    · simp
    · simp
    · exact posToString_ne_nil q

end JS

namespace Calculator

/-- `calculate()` never empties `currentOperand`. -/
theorem calculate_currentOperand_ne_nil (c : Calculator) (h : c.currentOperand ≠ []) :
    (calculate c).state.currentOperand ≠ [] := by
  unfold calculate
  cases c.operation with
  | none => exact h
  | some op =>
    simp only
    split_ifs
    · exact h
    · exact h
    · split
      · simp [handleCalculationError, clear]
      · exact h
      · split_ifs
        · simp [handleCalculationError, clear]
        · exact toString_ne_nil _

/-- After `calculate()`, a pending operation with `resetScreen` set was there before. -/
theorem calculate_pending (c : Calculator)
    (hop : (calculate c).state.operation ≠ none)
    (hrs : (calculate c).state.resetScreen = true) :
    (calculate c).state = c := by
  revert hop hrs
  unfold calculate
  cases c.operation with
  | none => intros; rfl
  | some op =>
    simp only
    split_ifs
    · intros; rfl
    · intros; rfl
    · split
      · simp [handleCalculationError, clear]
      · intros; rfl
      · split_ifs
        · simp [handleCalculationError, clear]
        · simp

/-- The invariant holds in the state set by the constructor. -/
theorem inv_initial : Inv initial := by
  constructor
  · decide
  · intro h
    exact absurd rfl h

/-- Every action preserves the invariant. -/
theorem inv_perform (c : Calculator) (a : UserAction) (h : Inv c) : Inv (perform c a) := by
  obtain ⟨hne, hpend⟩ := h
  cases a with
  | digit d =>
    simp only [perform, handleNumber]
    cases hrs : c.resetScreen with
    | true => simp [Inv, maxInputLength]
    | false =>
      simp only [Bool.false_eq_true, if_false]
      split_ifs <;> simp [Inv, hne, hrs]
  | decimalPoint =>
    simp only [perform, handleOperation, if_true]
    cases hrs : c.resetScreen with
    | true => simp [Inv]
    | false =>
      simp only [Bool.false_eq_true, if_false]
      split_ifs <;> simp [Inv, hne, hrs]
  | operator op =>
    have hsym : op.symbol ≠ ['.'] := by cases op <;> decide
    simp only [perform, handleOperation, hsym, if_false, hne, false_and]
    split_ifs with h1
    · exact ⟨calculate_currentOperand_ne_nil c hne, fun _ _ => rfl⟩
    · exact ⟨hne, fun _ _ => rfl⟩
  | equals =>
    refine ⟨calculate_currentOperand_ne_nil c hne, ?_⟩
    intro hop hrs
    simp only [perform] at hop hrs ⊢
    have heq := calculate_pending c hop hrs
    rw [heq] at hop hrs ⊢
    exact hpend hop hrs
  | clear =>
    simp [perform, clear, Inv]
  | delete =>
    simp only [perform, delete]
    split_ifs with h1 h2
    · exact ⟨hne, hpend⟩
    · simp [Inv, h1]
    · refine ⟨?_, by simp [h1]⟩
      simp only
      intro h0
      have hlen := congrArg List.length h0
      simp at hlen
      have : c.currentOperand.length ≠ 0 := fun h => hne (List.length_eq_zero.mp h)
      omega

/-- Every sequence of actions preserves the invariant. -/
theorem inv_run (actions : List UserAction) (c : Calculator) (h : Inv c) :
    Inv (run c actions) := by
  induction actions generalizing c with
  | nil => exact h
  | cons a as ih => exact ih _ (inv_perform c a h)

/-- The invariant holds in every reachable state. -/
theorem inv_of_reachable (c : Calculator) (h : Reachable c) : Inv c := by
  obtain ⟨actions, rfl⟩ := h
  exact inv_run actions initial inv_initial

/-- C7: in a reachable state with an operation pending and `resetScreen` set,
the two operands are equal, and another operator key shows nothing and only
replaces the pending operation. -/
theorem operator_change_of_mind (c : Calculator) (op2 : Operator)
    (hreach : Reachable c) (hop : c.operation ≠ none) (hrs : c.resetScreen = true) :
    c.previousOperand = c.currentOperand ∧
    handleOperation c op2.symbol = ⟨{ c with operation := some op2.symbol }, none⟩ := by
  obtain ⟨hne, hpend⟩ := inv_of_reachable c hreach
  have hpc := hpend hop hrs
  refine ⟨hpc, ?_⟩
  have hsym : op2.symbol ≠ ['.'] := by cases op2 <;> decide
  simp [handleOperation, hsym, hne, hrs, hpc]

/-- Witness for C7: after `5`, `+` the key `-` only replaces the operation. -/
theorem operator_change_of_mind_witness :
    (⟨['5'], ['5'], some ['+'], true⟩ : Calculator).previousOperand = ['5'] ∧
    handleOperation ⟨['5'], ['5'], some ['+'], true⟩ ['-']
      = ⟨⟨['5'], ['5'], some ['-'], true⟩, none⟩ :=
  operator_change_of_mind ⟨['5'], ['5'], some ['+'], true⟩ .subtract
    ⟨[.digit 5, .operator .add], by decide⟩ (by decide) rfl


/-- No operator key is the decimal point. -/
theorem symbol_ne_dot (op : Operator) : op.symbol ≠ ['.'] := by
  cases op <;> decide

/-- A pending operator key is truthy. -/
theorem truthy_symbol (op : Operator) : truthy (some op.symbol) = true := by
  cases op <;> rfl

/-- The `switch` of `calculate()` on an operator key, away from a division by zero. -/
theorem compute_symbol (op : Operator) (a b : Number)
    (h : ¬(op = .divide ∧ b = .fin 0)) :
    compute op.symbol a b = .ok (some (op.apply a b)) := by
  cases op with
  | add => simp [compute, Operator.symbol, Operator.apply]
  | subtract => simp [compute, Operator.symbol, Operator.apply]
  | multiply => simp [compute, Operator.symbol, Operator.apply]
  | divide =>
    have hb : b ≠ .fin 0 := fun hb => h ⟨rfl, hb⟩
    simp [compute, Operator.symbol, Operator.apply, hb]

/-- What `calculate()` returns when it completes. -/
theorem calculate_of_success (c : Calculator) (op : Operator)
    (hop : c.operation = some op.symbol) (hrs : c.resetScreen = false)
    (hprev : isNaN (parseFloat c.previousOperand) = false)
    (hcur : isNaN (parseFloat c.currentOperand) = false)
    (hdiv : ¬(op = .divide ∧ parseFloat c.currentOperand = .fin 0))
    (hfin : isFinite (op.apply (parseFloat c.previousOperand) (parseFloat c.currentOperand))
      = true) :
    calculate c =
      ⟨⟨(round8 (op.apply (parseFloat c.previousOperand)
          (parseFloat c.currentOperand))).toString, [], none, true⟩, none⟩ := by
  unfold calculate
  rw [hop]
  simp only [hrs, hprev, hcur, compute_symbol op _ _ hdiv, hfin]
  simp

/-- `parseFloat("")` is NaN. -/
theorem parseFloat_nil : parseFloat [] = .nan := by
  decide

/-- Outside the guard of `handleOperation`, `calculate()` does nothing. -/
theorem calculate_noop_of_not_guard (c : Calculator)
    (h : ¬(c.previousOperand ≠ [] ∧ truthy c.operation = true ∧ c.resetScreen = false)) :
    calculate c = ⟨c, none⟩ := by
  unfold calculate
  cases hop : c.operation with
  | none => rfl
  | some op =>
    simp only
    cases hrs : c.resetScreen with
    | true => simp
    | false =>
      simp only [Bool.false_eq_true, if_false]
      by_cases hp : c.previousOperand = []
      · simp [hp, parseFloat_nil, isNaN]
      · have hop0 : op = [] := by
          cases op with
          | nil => rfl
          | cons a t =>
            exfalso
            apply h
            rw [hop]
            exact ⟨hp, rfl, hrs⟩
        subst hop0
        split_ifs
        · rfl
        · simp [compute]

/-- Either `calculate()` does nothing, or it leaves no left operand and a
non-empty current operand. -/
theorem calculate_cases (c : Calculator) :
    calculate c = ⟨c, none⟩ ∨
      ((calculate c).state.previousOperand = [] ∧ (calculate c).state.currentOperand ≠ []) := by
  unfold calculate
  cases c.operation with
  | none => exact Or.inl rfl
  | some op =>
    simp only
    split_ifs
    · exact Or.inl rfl
    · exact Or.inl rfl
    · split
      · right
        simp [handleCalculationError, clear]
      · exact Or.inl rfl
      · split_ifs
        · right
          simp [handleCalculationError, clear]
        · right
          exact ⟨rfl, toString_ne_nil _⟩

/-- C2: an operator key acts as `calculate()` followed by the same key. When an
operation is pending and a new operand has been typed, what `calculate()`
leaves in `currentOperand` becomes both operands, the key becomes the pending
operation and `resetScreen` is set; when that evaluation completes, this is the
text of the rounded result. -/
theorem chained_evaluation (c : Calculator) (op2 : Operator) :
    (handleOperation c op2.symbol).state
      = (handleOperation (calculate c).state op2.symbol).state ∧
    (c.operation ≠ none → c.resetScreen = false → c.currentOperand ≠ [] →
      (handleOperation c op2.symbol).state =
        ⟨(calculate c).state.currentOperand, (calculate c).state.currentOperand,
          some op2.symbol, true⟩) ∧
    (∀ op1 : Operator, c.operation = some op1.symbol → c.resetScreen = false →
      isNaN (parseFloat c.previousOperand) = false →
      isNaN (parseFloat c.currentOperand) = false →
      ¬(op1 = .divide ∧ parseFloat c.currentOperand = .fin 0) →
      isFinite (op1.apply (parseFloat c.previousOperand) (parseFloat c.currentOperand))
        = true →
      (handleOperation c op2.symbol).state =
        ⟨(round8 (op1.apply (parseFloat c.previousOperand)
            (parseFloat c.currentOperand))).toString,
         (round8 (op1.apply (parseFloat c.previousOperand)
            (parseFloat c.currentOperand))).toString,
         some op2.symbol, true⟩) := by
  have hsym := symbol_ne_dot op2
  refine ⟨?_, ?_, ?_⟩
  · rcases calculate_cases c with hno | ⟨hp, hc⟩
    · rw [hno]
    · by_cases hg : c.previousOperand ≠ [] ∧ truthy c.operation = true ∧ c.resetScreen = false
      · have hpne : ¬(c.currentOperand = [] ∧ c.previousOperand = []) := fun h => hg.1 h.2
        simp [handleOperation, hsym, hpne, hg, hp, hc]
      · have hno := calculate_noop_of_not_guard c hg
        rw [hno]
  · intro _ hrs hne
    by_cases hg : c.previousOperand ≠ [] ∧ truthy c.operation = true ∧ c.resetScreen = false
    · simp [handleOperation, hsym, hne, hg]
    · have hno := calculate_noop_of_not_guard c hg
      simp [handleOperation, hsym, hne, hg, hno]
  · intro op1 hop hrs hprev hcur hdiv hfin
    have hcalc := calculate_of_success c op1 hop hrs hprev hcur hdiv hfin
    have hpne : c.previousOperand ≠ [] := by
      intro h
      rw [h, parseFloat_nil] at hprev
      exact absurd hprev (by decide)
    have htr : truthy c.operation = true := by
      rw [hop]
      exact truthy_symbol op1
    have hne : ¬(c.currentOperand = [] ∧ c.previousOperand = []) := fun h => hpne h.2
    simp [handleOperation, hsym, hpne, htr, hrs, hcalc]

/-- Witness for C2: `5`, `+`, `3`, `+` leaves "8" in both operands with `+`
pending, and `2`, `=` then gives "10". -/
theorem chained_evaluation_witness :
    (handleOperation ⟨['3'], ['5'], some ['+'], false⟩ ['+']).state
      = (handleOperation (calculate ⟨['3'], ['5'], some ['+'], false⟩).state ['+']).state ∧
    run initial [.digit 5, .operator .add, .digit 3, .operator .add]
      = ⟨['8'], ['8'], some ['+'], true⟩ ∧
    run initial [.digit 5, .operator .add, .digit 3, .operator .add, .digit 2, .equals]
      = ⟨['1', '0'], [], none, true⟩ :=
  ⟨(chained_evaluation ⟨['3'], ['5'], some ['+'], false⟩ .add).1,
   ((chained_evaluation ⟨['3'], ['5'], some ['+'], false⟩ .add).2.2 .add rfl rfl
      (by decide!) (by decide!) (by decide) (by decide!)).trans (by decide!),
   by decide!⟩

/-- C3: when `calculate()` completes, `currentOperand` is the text of the
rounded result, `previousOperand` is empty, no operation is pending and
`resetScreen` is set, so `updateDisplay` writes an empty previous line. The
rounded result is spelled out: with `x` the raw binary64 result and `y` the
binary64 product `x * 100000000`, it is the binary64 quotient of the integer
nearest to `y` (halves upwards) by `100000000`. -/
theorem calculate_success_state (c : Calculator) (op : Operator)
    (hop : c.operation = some op.symbol) (hrs : c.resetScreen = false)
    (hprev : isNaN (parseFloat c.previousOperand) = false)
    (hcur : isNaN (parseFloat c.currentOperand) = false)
    (hdiv : ¬(op = .divide ∧ parseFloat c.currentOperand = .fin 0))
    (hfin : isFinite (op.apply (parseFloat c.previousOperand) (parseFloat c.currentOperand))
      = true) :
    calculate c =
      ⟨⟨(round8 (op.apply (parseFloat c.previousOperand)
          (parseFloat c.currentOperand))).toString, [], none, true⟩, none⟩ ∧
    updateDisplay (calculate c).state =
      ⟨formatDisplayNumber (round8 (op.apply (parseFloat c.previousOperand)
          (parseFloat c.currentOperand))).toString, []⟩ ∧
    (∀ x y : ℚ,
      op.apply (parseFloat c.previousOperand) (parseFloat c.currentOperand) = .fin x →
      toDouble (x * 100000000) = .fin y →
      (calculate c).state.currentOperand =
        (toDouble (((⌊y + 1 / 2⌋ : Int) : ℚ) / 100000000)).toString) := by
  have h := calculate_of_success c op hop hrs hprev hcur hdiv hfin
  refine ⟨h, ?_, ?_⟩
  · rw [h]
    simp [updateDisplay]
  · intro x y hx hy
    have h8 : (100000000 : ℚ) ≠ 0 := by norm_num
    rw [h, hx]
    show (round8 (.fin x)).toString = _
    unfold round8
    simp only [Number.mul, hy, Math.round, Number.div]
    rw [if_neg h8]

/-- Witness for C3: `5`, `+`, `3`, `=` shows "8" and an empty previous line; the
binary64 sum of `0.1` and `0.2` prints as "0.30000000000000004", and what
`calculate()` stores for it is the rounded "0.3". -/
theorem calculate_success_state_witness :
    run initial [.digit 5, .operator .add, .digit 3] = ⟨['3'], ['5'], some ['+'], false⟩ ∧
    calculate ⟨['3'], ['5'], some ['+'], false⟩ = ⟨⟨['8'], [], none, true⟩, none⟩ ∧
    updateDisplay (calculate ⟨['3'], ['5'], some ['+'], false⟩).state = ⟨['8'], []⟩ ∧
    (parseFloat ['0', '.', '1']).add (parseFloat ['0', '.', '2'])
      = .fin (1351079888211149 / 4503599627370496) ∧
    ((parseFloat ['0', '.', '1']).add (parseFloat ['0', '.', '2'])).toString
      = "0.30000000000000004".toList ∧
    (calculate ⟨['0', '.', '2'], ['0', '.', '1'], some ['+'], false⟩).state.currentOperand
      = ['0', '.', '3'] :=
  ⟨by decide,
   ((calculate_success_state ⟨['3'], ['5'], some ['+'], false⟩ .add rfl rfl
      (by decide!) (by decide!) (by decide) (by decide!)).1).trans (by decide!),
   ((calculate_success_state ⟨['3'], ['5'], some ['+'], false⟩ .add rfl rfl
      (by decide!) (by decide!) (by decide) (by decide!)).2.1).trans (by decide!),
   by decide!,
   by decide!,
   ((calculate_success_state ⟨['0', '.', '2'], ['0', '.', '1'], some ['+'], false⟩ .add rfl rfl
      (by decide!) (by decide!) (by decide) (by decide!)).2.2
        (1351079888211149 / 4503599627370496) (8053063680000001 / 268435456)
        (by decide!) (by decide!)).trans (by decide!)⟩


/-- C4, as stated, fails: `999999999999999 * 999999999999999` leaves the text
"9.99999999999998e+29", which denotes `999999999999998000000000000000`, while
the exact product, an integer, is `999999999999998000000000000001`. -/
theorem exact_rounding_counterexample :
    numeralValue "999999999999999".toList = some 999999999999999 ∧
    (calculate ⟨"999999999999999".toList, "999999999999999".toList, some ['*'],
        false⟩).state.currentOperand = "9.99999999999998e+29".toList ∧
    numeralValue "9.99999999999998e+29".toList = some 999999999999998000000000000000 ∧
    roundTo8 (Operator.multiply.exact 999999999999999 999999999999999)
      = 999999999999998000000000000001 ∧
    ¬ExactResult ⟨"999999999999999".toList, "999999999999999".toList, some ['*'], false⟩
        .multiply := by
  have h1 : numeralValue "999999999999999".toList = some 999999999999999 := by decide!
  have h2 : (calculate ⟨"999999999999999".toList, "999999999999999".toList, some ['*'],
      false⟩).state.currentOperand = "9.99999999999998e+29".toList := by decide!
  have h3 : numeralValue "9.99999999999998e+29".toList
      = some 999999999999998000000000000000 := by decide!
  have h4 : roundTo8 (Operator.multiply.exact 999999999999999 999999999999999)
      = 999999999999998000000000000001 := by decide!
  refine ⟨h1, h2, h3, h4, ?_⟩
  rintro ⟨p, q, hp, hq, hr⟩
  simp only at hp hq hr
  rw [h1] at hp hq
  rw [h2, h3] at hr
  cases hp
  cases hq
  rw [h4] at hr
  exact absurd hr (by decide!)

/-- Rounding a real to a Number gives a finite value or an infinity. -/
theorem toDouble_cases (q : ℚ) : (∃ y, toDouble q = .fin y) ∨ (∃ neg, toDouble q = .inf neg) := by
  unfold toDouble
  simp only
  split_ifs
  · exact Or.inl ⟨_, rfl⟩
  · exact Or.inr ⟨_, rfl⟩
  · exact Or.inl ⟨_, rfl⟩
  · exact Or.inl ⟨_, rfl⟩

/-- The rounding step on a finite value gives the Number nearest to a multiple
of `10 ^ (-8)`, or an infinity when the multiplication overflows. -/
theorem round8_fin (x : ℚ) :
    (∃ k : Int, round8 (.fin x) = toDouble ((k : ℚ) / 100000000)) ∨
      (∃ neg, round8 (.fin x) = .inf neg) := by
  unfold round8
  rcases toDouble_cases (x * 100000000) with ⟨y, hy⟩ | ⟨neg, hneg⟩
  · left
    refine ⟨⌊y + 1 / 2⌋, ?_⟩
    simp [Number.mul, hy, Math.round, Number.div]
  · right
    refine ⟨neg, ?_⟩
    have h8 : ¬((100000000 : ℚ) < 0) := by norm_num
    simp [Number.mul, hneg, Math.round, Number.div, h8]

end Calculator

/-! ## Operands read as numbers -/

namespace JS

/-- A decimal digit is neither white space, nor a sign, nor the letter `I`. -/
theorem isDigit_facts (d : Char) (h : d.isDigit = true) :
    isWhiteSpace d = false ∧ d ≠ '+' ∧ d ≠ '-' ∧ d ≠ 'I' ∧ d ≠ '.' := by
  have hv : 48 ≤ d.toNat ∧ d.toNat ≤ 57 := by
    simp only [Char.isDigit, Bool.and_eq_true, decide_eq_true_eq] at h
    exact ⟨h.1, h.2⟩
  refine ⟨?_, ?_, ?_, ?_, ?_⟩
  · simp only [isWhiteSpace, Bool.or_eq_false_iff, decide_eq_false_iff_not, Bool.and_eq_false_iff,
      List.mem_cons, List.mem_singleton, List.not_mem_nil, or_false, not_or]
    omega
  · rintro rfl
    simp at hv
  · rintro rfl
    simp at hv
  · rintro rfl
    simp at hv
  · rintro rfl
    simp at hv

/-- A text that starts with a digit holds an unsigned decimal literal. -/
theorem scanUnsigned_headDigit (s : Str) (h : headDigit s = true) :
    ∃ q r, scanUnsigned s = some (.real q, r) := by
  cases s with
  | nil => simp [headDigit] at h
  | cons d t =>
    have hd : d.isDigit = true := h
    have hI : ('I' == d) = false := by
      have := (isDigit_facts d hd).2.2.2.1
      simpa [beq_eq_false_iff_ne] using this.symm
    have hpre : "Infinity".toList.isPrefixOf (d :: t) = false := by
      show List.isPrefixOf ('I' :: _) (d :: t) = false
      simp [List.isPrefixOf, hI]
    have hip : (d :: t).takeWhile Char.isDigit ≠ [] := by
      simp [List.takeWhile_cons, hd]
    unfold scanUnsigned
    simp only [hpre, Bool.false_eq_true, if_false]
    rw [if_neg (fun hc => hip hc.1)]
    exact ⟨_, _, rfl⟩

/-- A text that starts with `Infinity` holds the literal `Infinity`. -/
theorem scanUnsigned_infinity (s : Str) (h : "Infinity".toList.isPrefixOf s = true) :
    scanUnsigned s = some (.infinity, s.drop 8) := by
  unfold scanUnsigned
  rw [if_pos h]

/-- The Number value of a mathematical value is not NaN. -/
theorem toNumber_not_nan (neg : Bool) (mv : MV) : isNaN (mv.toNumber neg) = false := by
  cases mv with
  | infinity => rfl
  | real q =>
    unfold MV.toNumber
    simp only
    rcases Calculator.toDouble_cases q with ⟨y, hy⟩ | ⟨b, hb⟩
    · rw [hy]
      cases neg <;> rfl
    · rw [hb]
      cases neg <;> rfl

/-- Without a sign in front, a signed literal is an unsigned one. -/
theorem scanDecimal_cons (c : Char) (t : Str) (h1 : c ≠ '+') (h2 : c ≠ '-') :
    scanDecimal (c :: t) = (scanUnsigned (c :: t)).map fun p => (false, p.1, p.2) := by
  unfold scanDecimal
  split
  · rename_i heq
    cases heq
    exact absurd rfl h1
  · rename_i heq
    cases heq
    exact absurd rfl h2
  · rfl

/-- Whatever `scanUnsigned` finds, `parseFloat` does not return NaN on the text
or on the text behind a minus sign. -/
theorem parseFloat_of_scanUnsigned (c : Char) (t : Str) (mv : MV) (r : Str)
    (hw : isWhiteSpace c = false) (h1 : c ≠ '+') (h2 : c ≠ '-')
    (h : scanUnsigned (c :: t) = some (mv, r)) :
    isNaN (parseFloat (c :: t)) = false ∧ isNaN (parseFloat ('-' :: c :: t)) = false := by
  constructor
  · unfold parseFloat
    rw [List.dropWhile_cons_of_neg (by simp [hw]), scanDecimal_cons c t h1 h2, h]
    exact toNumber_not_nan _ _
  · unfold parseFloat
    have hm : isWhiteSpace '-' = false := by decide
    rw [List.dropWhile_cons_of_neg (by simp [hm])]
    show isNaN (match (scanUnsigned (c :: t)).map fun p => (true, p.1, p.2) with
      | some (neg, mv, _) => mv.toNumber neg
      | none => .nan) = false
    rw [h]
    exact toNumber_not_nan _ _

/-- A text that starts like a numeral is read by `parseFloat` as a number. -/
theorem parseFloat_of_numeralLike (s : Str) (h : numeralLike s = true) :
    isNaN (parseFloat s) = false := by
  have key : ∀ u : Str, (headDigit u || "Infinity".toList.isPrefixOf u) = true →
      ∃ c t mv r, u = c :: t ∧ isWhiteSpace c = false ∧ c ≠ '+' ∧ c ≠ '-' ∧
        scanUnsigned (c :: t) = some (mv, r) := by
    intro u hu
    rw [Bool.or_eq_true] at hu
    cases u with
    | nil =>
      rcases hu with hu | hu
      · simp [headDigit] at hu
      · exact absurd hu (by decide)
    | cons c t =>
      rcases hu with hu | hu
      · obtain ⟨q, r, hq⟩ := scanUnsigned_headDigit (c :: t) hu
        have hf := isDigit_facts c hu
        exact ⟨c, t, _, r, rfl, hf.1, hf.2.1, hf.2.2.1, hq⟩
      · have hc : c = 'I' := by
          have hu2 : (('I' == c) && "nfinity".toList.isPrefixOf t) = true := hu
          rw [Bool.and_eq_true] at hu2
          exact (beq_iff_eq.mp hu2.1).symm
        subst hc
        exact ⟨'I', t, _, _, rfl, by decide, by decide, by decide,
          scanUnsigned_infinity _ hu⟩
  unfold numeralLike at h
  split at h
  · rename_i t
    obtain ⟨c, u, mv, r, rfl, hw, h1, h2, hs⟩ := key t h
    exact (parseFloat_of_scanUnsigned c u mv r hw h1 h2 hs).2
  · obtain ⟨c, u, mv, r, rfl, hw, h1, h2, hs⟩ := key s h
    exact (parseFloat_of_scanUnsigned c u mv r hw h1 h2 hs).1

/-- The character of a digit value below ten is a decimal digit. -/
theorem digitChar_mod_isDigit (n : Nat) : (Nat.digitChar (n % 10)).isDigit = true := by
  have h : n % 10 < 10 := Nat.mod_lt _ (by decide)
  have hall : ∀ m, m < 10 → (Nat.digitChar m).isDigit = true := by decide
  exact hall _ h

/-- The digit loop of `Nat.toDigits` returns a text that starts with a digit as
soon as it runs a step or starts from such a text. -/
theorem toDigitsCore_headDigit :
    ∀ (fuel n : Nat) (ds : List Char), (fuel ≠ 0 ∨ headDigit ds = true) →
      headDigit (Nat.toDigitsCore 10 fuel n ds) = true := by
  intro fuel
  induction fuel with
  | zero =>
    intro n ds h
    rcases h with h | h
    · exact absurd rfl h
    · simpa [Nat.toDigitsCore] using h
  | succ fuel ih =>
    intro n ds _
    unfold Nat.toDigitsCore
    simp only
    split_ifs
    · exact digitChar_mod_isDigit n
    · exact ih _ _ (Or.inr (digitChar_mod_isDigit n))

/-- The decimal digits of a natural number start with a digit. -/
theorem decDigits_headDigit (n : Nat) : headDigit (decDigits n) = true :=
  toDigitsCore_headDigit (n + 1) n [] (Or.inl (by simp))

/-- A prefix of positive length starts like the text itself. -/
theorem headDigit_take (s : Str) (k : Nat) (hk : 0 < k) (h : headDigit s = true) :
    headDigit (s.take k ++ t) = true := by
  cases s with
  | nil => simp [headDigit] at h
  | cons d u =>
    cases k with
    | zero => exact absurd hk (by decide)
    | succ k => simpa [headDigit] using h

/-- A text that starts with a digit still does when more is appended. -/
theorem headDigit_append (s t : Str) (h : headDigit s = true) : headDigit (s ++ t) = true := by
  cases s with
  | nil => simp [headDigit] at h
  | cons d u => simpa [headDigit] using h

/-- The text of a positive Number starts with a digit. -/
theorem posToString_headDigit (x : ℚ) : headDigit (posToString x) = true := by
  unfold posToString
  rcases shortestFrom x 17 1 with ⟨k, s, n⟩
  simp only
  have hd := decDigits_headDigit s
  split_ifs with h1 h2 h3 h4
  · exact headDigit_append _ _ hd
  · exact headDigit_take _ _ (by omega) hd
  · rfl
  · exact headDigit_append _ _ hd
  · exact headDigit_take _ _ (by decide) hd

/-- The text of a Number other than NaN starts like a numeral. -/
theorem toString_numeralLike (v : Number) (h : isNaN v = false) :
    numeralLike v.toString = true := by
  cases v with
  | nan => simp [isNaN] at h
  | inf neg => cases neg <;> decide
  | fin q =>
    simp only [Number.toString]
    split_ifs
    · decide
    · show (headDigit (posToString (-q)) || _) = true
      rw [posToString_headDigit]
      rfl
    · have hp := posToString_headDigit q
      cases hs : posToString q with
      | nil => simp [hs, headDigit] at hp
      | cons d t =>
        rw [hs] at hp
        have hd : d.isDigit = true := hp
        have hm : d ≠ '-' := (isDigit_facts d hd).2.2.1
        unfold numeralLike
        split
        · rename_i heq
          cases heq
          exact absurd rfl hm
        · simp [headDigit, hd]

end JS

/-! ## The state invariant -/

namespace Calculator

/-- A text that starts with a digit starts like a numeral. -/
theorem numeralLike_of_headDigit (s : Str) (h : headDigit s = true) :
    numeralLike s = true := by
  cases s with
  | nil => simp [headDigit] at h
  | cons d t =>
    have hd : d.isDigit = true := h
    have hm : d ≠ '-' := (isDigit_facts d hd).2.2.1
    unfold numeralLike
    split
    · rename_i heq
      cases heq
      exact absurd rfl hm
    · simp [headDigit, hd]

/-- A text that starts like a numeral is not empty. -/
theorem ne_nil_of_numeralLike (s : Str) (h : numeralLike s = true) : s ≠ [] := by
  rintro rfl
  exact absurd h (by decide)

/-- A typed operand starts with a digit. -/
theorem headDigit_of_typedOperand (s : Str) (h : typedOperand s = true) :
    headDigit s = true := by
  simp only [typedOperand, Bool.and_eq_true] at h
  exact h.1.1

/-- A typed operand stays one when a digit is appended. -/
theorem typedOperand_append_digit (s : Str) (d : Fin 10) (h : typedOperand s = true) :
    typedOperand (s ++ [digitChar d]) = true := by
  simp only [typedOperand, Bool.and_eq_true, decide_eq_true_eq] at h ⊢
  obtain ⟨⟨h1, h2⟩, h3⟩ := h
  refine ⟨⟨headDigit_append _ _ h1, ?_⟩, ?_⟩
  · simp only [List.all_append, Bool.and_eq_true]
    exact ⟨h2, by simp [digitChar_isDigit]⟩
  · have hne : digitChar d ≠ '.' := digitChar_ne_dot d
    simp [List.count_append, List.count_cons, hne, h3]

/-- A typed operand without `.` stays one when `.` is appended. -/
theorem typedOperand_append_dot (s : Str) (h : typedOperand s = true) (hdot : '.' ∉ s) :
    typedOperand (s ++ ['.']) = true := by
  simp only [typedOperand, Bool.and_eq_true, decide_eq_true_eq] at h ⊢
  obtain ⟨⟨h1, h2⟩, _⟩ := h
  refine ⟨⟨headDigit_append _ _ h1, ?_⟩, ?_⟩
  · simp only [List.all_append, Bool.and_eq_true]
    exact ⟨h2, by simp⟩
  · have h0 : s.count '.' = 0 := List.count_eq_zero.mpr hdot
    simp [List.count_append, h0]

/-- A typed operand of two characters or more stays one without its last character. -/
theorem typedOperand_dropLast (s : Str) (h : typedOperand s = true) (hlen : 2 ≤ s.length) :
    typedOperand s.dropLast = true := by
  simp only [typedOperand, Bool.and_eq_true, decide_eq_true_eq] at h ⊢
  obtain ⟨⟨h1, h2⟩, h3⟩ := h
  have hsub : s.dropLast.Sublist s := List.dropLast_sublist s
  refine ⟨⟨?_, ?_⟩, ?_⟩
  · cases s with
    | nil => simp at hlen
    | cons d t =>
      cases t with
      | nil => simp at hlen
      | cons e u => simpa [headDigit, List.dropLast] using h1
  · rw [List.all_eq_true] at h2 ⊢
    intro ch hch
    exact h2 ch (hsub.subset hch)
  · exact le_trans (hsub.count_le _) h3

/-- The text of one digit key is a typed operand. -/
theorem typedOperand_digit (d : Fin 10) : typedOperand [digitChar d] = true := by
  revert d; decide

/-- The rounding step on a finite value does not give NaN. -/
theorem round8_not_nan (x : ℚ) : isNaN (round8 (.fin x)) = false := by
  rcases round8_fin x with ⟨k, hk⟩ | ⟨neg, hneg⟩
  · rw [hk]
    rcases toDouble_cases ((k : ℚ) / 100000000) with ⟨y, hy⟩ | ⟨b, hb⟩
    · rw [hy]; rfl
    · rw [hb]; rfl
  · rw [hneg]; rfl

/-- `calculate()` leaves in `currentOperand` a text that starts like a numeral,
if it found one. -/
theorem calculate_numeralLike (c : Calculator) (h : numeralLike c.currentOperand = true) :
    numeralLike (calculate c).state.currentOperand = true := by
  unfold calculate
  cases c.operation with
  | none => exact h
  | some op =>
    simp only
    split_ifs
    · exact h
    · exact h
    · split
      · simp [handleCalculationError, clear, numeralLike, headDigit]
      · exact h
      · rename_i v _
        split_ifs with hfin
        · simp [handleCalculationError, clear, numeralLike, headDigit]
        · cases v with
          | nan => simp [isFinite] at hfin
          | inf neg => simp [isFinite] at hfin
          | fin x => exact toString_numeralLike _ (round8_not_nan x)

/-- The three ways `calculate()` can end: nothing changed, the state was
cleared, or a result was stored. -/
theorem calculate_state_cases (c : Calculator) :
    (calculate c).state = c ∨ (calculate c).state = initial ∨
      ∃ v, (calculate c).state = ⟨(round8 v).toString, [], none, true⟩ := by
  unfold calculate
  cases c.operation with
  | none => exact Or.inl rfl
  | some op =>
    simp only
    split_ifs
    · exact Or.inl rfl
    · exact Or.inl rfl
    · split
      · exact Or.inr (Or.inl rfl)
      · exact Or.inl rfl
      · split_ifs
        · exact Or.inr (Or.inl rfl)
        · exact Or.inr (Or.inr ⟨_, rfl⟩)

/-- The invariant holds in the state set by the constructor. -/
theorem wf_initial : WF initial := by
  refine ⟨fun _ => by decide, by decide, fun h => absurd rfl h, fun _ => rfl⟩

/-- `calculate()` preserves the invariant. -/
theorem wf_calculate (c : Calculator) (h : WF c) : WF (calculate c).state := by
  have hnum := calculate_numeralLike c h.2.1
  rcases calculate_state_cases c with hc | hc | ⟨v, hc⟩
  · rw [hc]
    exact h
  · rw [hc]
    exact wf_initial
  · rw [hc] at hnum ⊢
    exact ⟨fun hrs => Bool.noConfusion hrs, hnum, fun h => absurd rfl h, fun _ => rfl⟩

/-- Every action preserves the invariant. -/
theorem wf_perform (c : Calculator) (a : UserAction) (h : WF c) : WF (perform c a) := by
  obtain ⟨htyped, hcur, hprev, hnone⟩ := h
  cases a with
  | digit d =>
    simp only [perform, handleNumber]
    cases hrs : c.resetScreen with
    | true =>
      simp only [if_true, maxInputLength]
      refine ⟨fun _ => ?_, ?_, hprev, hnone⟩
      · simpa using typedOperand_digit d
      · simpa using numeralLike_of_headDigit _ (headDigit_of_typedOperand _ (typedOperand_digit d))
    | false =>
      have ht := htyped hrs
      simp only [Bool.false_eq_true, if_false]
      split_ifs
      · exact ⟨fun _ => ht, hcur, hprev, hnone⟩
      · exact ⟨fun _ => typedOperand_digit d,
          numeralLike_of_headDigit _ (headDigit_of_typedOperand _ (typedOperand_digit d)),
          hprev, hnone⟩
      · exact ⟨fun _ => ht, hcur, hprev, hnone⟩
      · have ht2 := typedOperand_append_digit _ d ht
        exact ⟨fun _ => ht2, numeralLike_of_headDigit _ (headDigit_of_typedOperand _ ht2),
          hprev, hnone⟩
  | decimalPoint =>
    simp only [perform, handleOperation, if_true]
    cases hrs : c.resetScreen with
    | true =>
      simp only [if_true]
      rw [if_neg (by decide)]
      have h1 : typedOperand ['0', '.'] = true := by decide
      have h2 : numeralLike ['0', '.'] = true := by decide
      exact ⟨fun _ => h1, h2, hprev, hnone⟩
    | false =>
      have ht := htyped hrs
      simp only [Bool.false_eq_true, if_false]
      split_ifs with hdot
      · exact ⟨fun _ => ht, hcur, hprev, hnone⟩
      · have ht2 := typedOperand_append_dot _ ht hdot
        exact ⟨fun _ => ht2, numeralLike_of_headDigit _ (headDigit_of_typedOperand _ ht2),
          hprev, hnone⟩
  | operator op =>
    have hsym := symbol_ne_dot op
    have hne : c.currentOperand ≠ [] := ne_nil_of_numeralLike _ hcur
    simp only [perform, handleOperation, hsym, if_false, hne, false_and]
    split_ifs
    · have hw := wf_calculate c ⟨htyped, hcur, hprev, hnone⟩
      exact ⟨fun hrs => Bool.noConfusion hrs, hw.2.1, fun _ => hw.2.1,
        fun h => absurd h (by simp)⟩
    · exact ⟨fun hrs => Bool.noConfusion hrs, hcur, fun _ => hcur, fun h => absurd h (by simp)⟩
  | equals =>
    exact wf_calculate c ⟨htyped, hcur, hprev, hnone⟩
  | clear =>
    exact wf_initial
  | delete =>
    simp only [perform, delete]
    split_ifs with h1 h2
    · exact ⟨htyped, hcur, hprev, hnone⟩
    · have h3 : typedOperand ['0'] = true := by decide
      have h4 : numeralLike ['0'] = true := by decide
      exact ⟨fun _ => h3, h4, hprev, hnone⟩
    · have hrs : c.resetScreen = false := by simpa using h1
      have ht := htyped hrs
      have hne : c.currentOperand ≠ [] := ne_nil_of_numeralLike _ hcur
      have hlen : 2 ≤ c.currentOperand.length := by
        have : c.currentOperand.length ≠ 0 := fun h => hne (List.length_eq_zero.mp h)
        omega
      have ht2 := typedOperand_dropLast _ ht hlen
      exact ⟨fun _ => ht2, numeralLike_of_headDigit _ (headDigit_of_typedOperand _ ht2),
        hprev, hnone⟩

/-- Every sequence of actions preserves the invariant. -/
theorem wf_run (actions : List UserAction) (c : Calculator) (h : WF c) :
    WF (run c actions) := by
  induction actions generalizing c with
  | nil => exact h
  | cons a as ih => exact ih _ (wf_perform c a h)

/-- The invariant holds in every reachable state. -/
theorem wf_of_reachable (c : Calculator) (h : Reachable c) : WF c := by
  obtain ⟨actions, rfl⟩ := h
  exact wf_run actions initial wf_initial

/-- C11: in every reachable state, `previousOperand` is non-empty if and only
if an operation is set. -/
theorem previousOperand_iff_operation (c : Calculator) (h : Reachable c) :
    c.previousOperand ≠ [] ↔ c.operation ≠ none := by
  obtain ⟨_, _, hprev, hnone⟩ := wf_of_reachable c h
  constructor
  · intro hp hop
    exact hp (hnone hop)
  · intro hop
    exact ne_nil_of_numeralLike _ (hprev hop)

/-- Witness for C11: after `5`, `+` both sides hold; after `5`, `+`, `3`, `=`
neither does. -/
theorem previousOperand_iff_operation_witness :
    ((⟨['5'], ['5'], some ['+'], true⟩ : Calculator).previousOperand ≠ [] ↔
      (⟨['5'], ['5'], some ['+'], true⟩ : Calculator).operation ≠ none) ∧
    ((⟨['8'], [], none, true⟩ : Calculator).previousOperand ≠ [] ↔
      (⟨['8'], [], none, true⟩ : Calculator).operation ≠ none) :=
  ⟨previousOperand_iff_operation ⟨['5'], ['5'], some ['+'], true⟩
      ⟨[.digit 5, .operator .add], by decide⟩,
   previousOperand_iff_operation ⟨['8'], [], none, true⟩
      ⟨[.digit 5, .operator .add, .digit 3, .equals], by decide!⟩⟩

/-- C12: in every reachable state `currentOperand` is not empty, and while
`resetScreen` is unset it consists of decimal digits and at most one `.` and
starts with a digit. -/
theorem currentOperand_well_formed (c : Calculator) (h : Reachable c) :
    c.currentOperand ≠ [] ∧
    (c.resetScreen = false →
      (∀ ch ∈ c.currentOperand, ch.isDigit = true ∨ ch = '.') ∧
      c.currentOperand.count '.' ≤ 1 ∧
      ∃ d t, c.currentOperand = d :: t ∧ d.isDigit = true) := by
  obtain ⟨htyped, hcur, _, _⟩ := wf_of_reachable c h
  refine ⟨ne_nil_of_numeralLike _ hcur, fun hrs => ?_⟩
  have ht := htyped hrs
  simp only [typedOperand, Bool.and_eq_true, decide_eq_true_eq, List.all_eq_true,
    Bool.or_eq_true] at ht
  obtain ⟨⟨h1, h2⟩, h3⟩ := ht
  refine ⟨h2, h3, ?_⟩
  cases hc : c.currentOperand with
  | nil =>
    rw [hc] at h1
    simp [headDigit] at h1
  | cons d t =>
    rw [hc] at h1
    exact ⟨d, t, rfl, h1⟩

/-- Witness for C12: the operand "12.5" typed after `7`, `+`. -/
theorem currentOperand_well_formed_witness :
    (⟨['1', '2', '.', '5'], ['7'], some ['+'], false⟩ : Calculator).currentOperand ≠ [] ∧
    ((∀ ch ∈ (⟨['1', '2', '.', '5'], ['7'], some ['+'], false⟩ : Calculator).currentOperand,
        ch.isDigit = true ∨ ch = '.') ∧
      (⟨['1', '2', '.', '5'], ['7'], some ['+'], false⟩ : Calculator).currentOperand.count '.'
        ≤ 1 ∧
      ∃ d t, (⟨['1', '2', '.', '5'], ['7'], some ['+'], false⟩ : Calculator).currentOperand
        = d :: t ∧ d.isDigit = true) :=
  ⟨(currentOperand_well_formed ⟨['1', '2', '.', '5'], ['7'], some ['+'], false⟩
      ⟨[.digit 7, .operator .add, .digit 1, .digit 2, .decimalPoint, .digit 5], by decide⟩).1,
   (currentOperand_well_formed ⟨['1', '2', '.', '5'], ['7'], some ['+'], false⟩
      ⟨[.digit 7, .operator .add, .digit 1, .digit 2, .decimalPoint, .digit 5], by decide⟩).2
      rfl⟩

/-- C15: in every reachable state that passes the first guard of `calculate()`
(an operation is pending and `resetScreen` is unset), both operands parse, so
the test `isNaN(prev) || isNaN(current)` is false. -/
theorem parse_guard_unreachable (c : Calculator) (h : Reachable c)
    (hop : c.operation ≠ none) (_hrs : c.resetScreen = false) :
    isNaN (parseFloat c.previousOperand) = false ∧
    isNaN (parseFloat c.currentOperand) = false ∧
    (isNaN (parseFloat c.previousOperand) || isNaN (parseFloat c.currentOperand)) = false := by
  obtain ⟨_, hcur, hprev, _⟩ := wf_of_reachable c h
  have h1 := parseFloat_of_numeralLike _ (hprev hop)
  have h2 := parseFloat_of_numeralLike _ hcur
  exact ⟨h1, h2, by rw [h1, h2]; rfl⟩

/-- Witness for C15: the state after `1`, `÷`, `3`, `=`, `*`, `2`, where the
left operand is the result text "0.33333333". -/
theorem parse_guard_unreachable_witness :
    isNaN (parseFloat (⟨['2'], "0.33333333".toList, some ['*'], false⟩ :
      Calculator).previousOperand) = false ∧
    isNaN (parseFloat (⟨['2'], "0.33333333".toList, some ['*'], false⟩ :
      Calculator).currentOperand) = false ∧
    (isNaN (parseFloat (⟨['2'], "0.33333333".toList, some ['*'], false⟩ :
        Calculator).previousOperand) ||
      isNaN (parseFloat (⟨['2'], "0.33333333".toList, some ['*'], false⟩ :
        Calculator).currentOperand)) = false :=
  parse_guard_unreachable ⟨['2'], "0.33333333".toList, some ['*'], false⟩
    ⟨[.digit 1, .operator .divide, .digit 3, .equals, .operator .multiply, .digit 2],
      by decide!⟩
    (by decide) rfl

/-- C20: with `resetScreen` unset and a non-empty operand of fewer than 15
characters, a digit followed by `delete()` gives back the state. -/
theorem delete_undoes_digit (c : Calculator) (d : Fin 10)
    (hrs : c.resetScreen = false) (hne : c.currentOperand ≠ [])
    (hlen : c.currentOperand.length < maxInputLength) :
    delete (handleNumber c [digitChar d]).state = c := by
  obtain ⟨cur, prev, op, rs⟩ := c
  simp only at hrs hne hlen
  subst hrs
  have hdot : digitChar d ≠ '.' := digitChar_ne_dot d
  by_cases h0 : cur = ['0']
  · subst h0
    by_cases hd : digitChar d = '0'
    · simp [handleNumber, delete, hd]
    · simp [handleNumber, delete, hd, hdot]
  · have hlen2 : ¬maxInputLength ≤ cur.length := by omega
    have hpos : cur.length ≠ 0 := fun h => hne (List.length_eq_zero.mp h)
    simp [handleNumber, delete, h0, hlen2, hpos]

/-- Witness for C20: on "0" the digit `0` is refused and `7` replaces it; on
"12." the digit `7` is appended; Delete gives the state back each time. -/
theorem delete_undoes_digit_witness :
    delete (handleNumber ⟨['0'], [], none, false⟩ [digitChar 0]).state
      = ⟨['0'], [], none, false⟩ ∧
    delete (handleNumber ⟨['0'], [], none, false⟩ [digitChar 7]).state
      = ⟨['0'], [], none, false⟩ ∧
    delete (handleNumber ⟨['1', '2', '.'], ['5'], some ['+'], false⟩ [digitChar 7]).state
      = ⟨['1', '2', '.'], ['5'], some ['+'], false⟩ :=
  ⟨delete_undoes_digit ⟨['0'], [], none, false⟩ 0 rfl (by decide) (by decide),
   delete_undoes_digit ⟨['0'], [], none, false⟩ 7 rfl (by decide) (by decide),
   delete_undoes_digit ⟨['1', '2', '.'], ['5'], some ['+'], false⟩ 7 rfl (by decide)
     (by decide)⟩

/-- An action that does not evaluate keeps the number of digits within the cap. -/
theorem digitCount_perform (c : Calculator) (a : UserAction)
    (hev : evaluates c a = false) (h : digitCount c.currentOperand ≤ maxInputLength) :
    digitCount (perform c a).currentOperand ≤ maxInputLength := by
  cases a with
  | digit d =>
    have hdig : (digitChar d).isDigit = true := digitChar_isDigit d
    simp only [perform, handleNumber]
    cases hrs : c.resetScreen with
    | true => simp [digitCount, maxInputLength, hdig]
    | false =>
      simp only [Bool.false_eq_true, if_false]
      split_ifs with h1 h2 h3
      · exact h
      · simp [digitCount, maxInputLength, hdig]
      · exact h
      · have hle : digitCount c.currentOperand ≤ c.currentOperand.length :=
          List.countP_le_length _
        simp only [digitCount, List.countP_append, List.countP_cons, List.countP_nil, hdig,
          if_true] at hle ⊢
        omega
  | decimalPoint =>
    simp only [perform, handleOperation, if_true]
    cases hrs : c.resetScreen with
    | true =>
      simp only [if_true]
      rw [if_neg (by decide)]
      show digitCount ['0', '.'] ≤ maxInputLength
      decide
    | false =>
      simp only [Bool.false_eq_true, if_false]
      split_ifs
      · exact h
      · have hdot : ('.' : Char).isDigit = false := by decide
        simpa [digitCount, List.countP_append, hdot] using h
  | operator op =>
    have hsym := symbol_ne_dot op
    have hg : ¬(c.previousOperand ≠ [] ∧ truthy c.operation = true ∧ c.resetScreen = false) := by
      simpa [evaluates] using hev
    simp only [perform, handleOperation, hsym, if_false, hg]
    split_ifs
    · exact h
    · exact h
  | equals => simp [evaluates] at hev
  | clear =>
    show digitCount ['0'] ≤ maxInputLength
    decide
  | delete =>
    simp only [perform, delete]
    split_ifs
    · exact h
    · show digitCount ['0'] ≤ maxInputLength
      decide
    · exact le_trans ((List.dropLast_sublist _).countP_le _) h

/-- A sequence of actions without evaluation keeps the number of digits within the cap. -/
theorem digitCount_runTyping (actions : List UserAction) (c r : Calculator)
    (h : digitCount c.currentOperand ≤ maxInputLength) (hr : runTyping c actions = some r) :
    digitCount r.currentOperand ≤ maxInputLength := by
  induction actions generalizing c with
  | nil =>
    simp only [runTyping, Option.some.injEq] at hr
    rw [← hr]
    exact h
  | cons a rest ih =>
    simp only [runTyping] at hr
    split_ifs at hr with hev
    exact ih _ (digitCount_perform c a (by simpa using hev) h) hr

/-- C17: in every state reached from the initial state through digit,
decimal-point, operator, clear and delete actions without any evaluation,
`currentOperand` holds at most 15 digit characters. -/
theorem digit_cap (c : Calculator) (h : TypedReachable c) :
    digitCount c.currentOperand ≤ maxInputLength := by
  obtain ⟨actions, hr⟩ := h
  exact digitCount_runTyping actions initial c (by decide) hr

/-- Witness for C17: fifteen digits and then `.` give 16 characters, 15 of them digits. -/
theorem digit_cap_witness :
    (⟨"999999999999999.".toList, [], none, false⟩ : Calculator).currentOperand.length = 16 ∧
    digitCount (⟨"999999999999999.".toList, [], none, false⟩ : Calculator).currentOperand
      ≤ maxInputLength :=
  ⟨by decide,
   digit_cap ⟨"999999999999999.".toList, [], none, false⟩
     ⟨List.replicate 15 (.digit 9) ++ [.decimalPoint], by decide⟩⟩

/-! ## The display -/

/-- On digits, the replacement by the regular expression is the grouping of
the specification. -/
theorem groupDigits_eq_groupSpec (s : Str) (hs : ∀ ch ∈ s, ch.isDigit = true) :
    ∀ (before : Option Char) (front : Bool),
      (match before with
        | some b => isWordChar b
        | none => false) = !front →
      groupDigits before s = groupSpec front s := by
  induction s with
  | nil => intro _ _ _; rfl
  | cons ch t ih =>
    intro before front hb
    have hch : ch.isDigit = true := hs ch (List.mem_cons_self _ _)
    have ht : ∀ x ∈ t, x.isDigit = true := fun x hx => hs x (List.mem_cons_of_mem _ hx)
    have hrun : ((ch :: t).takeWhile Char.isDigit).length = t.length + 1 := by
      rw [List.takeWhile_eq_self_iff.mpr hs]
      rfl
    have hword : isWordChar ch = true := by
      simp [isWordChar, Char.isAlphanum, hch]
    have hrec := ih ht (some ch) false (by simpa using hword)
    unfold groupDigits groupSpec
    simp only [hrun, hb, hrec]
    cases front <;> simp

/-- Removing the separators from a grouped text gives the text back. -/
theorem groupSpec_filter (s : Str) (hs : ',' ∉ s) :
    ∀ front : Bool, (groupSpec front s).filter (fun ch => ch != ',') = s := by
  induction s with
  | nil => intro _; rfl
  | cons ch t ih =>
    intro front
    have hch : ch ≠ ',' := fun h => hs (h ▸ List.mem_cons_self _ _)
    have ht : ',' ∉ t := fun h => hs (List.mem_cons_of_mem _ h)
    unfold groupSpec
    split_ifs <;> simp [List.filter_cons, hch, ih ht]

/-- A text of digits holds neither `.` nor `,`. -/
theorem digits_no_punctuation (s : Str) (hs : ∀ ch ∈ s, ch.isDigit = true) :
    '.' ∉ s ∧ ',' ∉ s := by
  constructor
  · intro h
    exact absurd (hs _ h) (by decide)
  · intro h
    exact absurd (hs _ h) (by decide)

/-- C13: for an integer part of 1 to 12 digits, alone or followed by `.` and
digits, `formatDisplayNumber` puts a `,` in front of every digit that has a
positive multiple of 3 digits from itself to the right end of the integer
part, and leaves the `.` and the fraction as they are; removing the commas
gives the operand back; the empty operand gives the empty text. -/
theorem formatDisplayNumber_grouping (ip fp : Str) (hne : ip ≠ []) (hlen : ip.length ≤ 12)
    (hip : ∀ ch ∈ ip, ch.isDigit = true) (hfp : ∀ ch ∈ fp, ch.isDigit = true) :
    formatDisplayNumber ip = groupSpec true ip ∧
    formatDisplayNumber (ip ++ '.' :: fp) = groupSpec true ip ++ '.' :: fp ∧
    (formatDisplayNumber ip).filter (fun ch => ch != ',') = ip ∧
    (formatDisplayNumber (ip ++ '.' :: fp)).filter (fun ch => ch != ',') = ip ++ '.' :: fp ∧
    formatDisplayNumber [] = [] := by
  have hipd : ∀ ch ∈ ip, (ch != '.') = true := by
    intro ch hch
    have := (isDigit_facts ch (hip ch hch)).2.2.2.2
    simpa using this
  have hfpd : ∀ ch ∈ fp, (ch != '.') = true := by
    intro ch hch
    have := (isDigit_facts ch (hfp ch hch)).2.2.2.2
    simpa using this
  have hgroup := groupDigits_eq_groupSpec ip hip none true rfl
  have hlen2 : ¬12 < ip.length := by omega
  have h1 : formatDisplayNumber ip = groupSpec true ip := by
    unfold formatDisplayNumber
    rw [if_neg hne]
    simp only [List.takeWhile_eq_self_iff.mpr hipd, List.dropWhile_eq_nil_iff.mpr hipd, hlen2,
      if_false, hgroup]
  have h2 : formatDisplayNumber (ip ++ '.' :: fp) = groupSpec true ip ++ '.' :: fp := by
    unfold formatDisplayNumber
    rw [if_neg (by simp)]
    have htake : (ip ++ '.' :: fp).takeWhile (fun ch => ch != '.') = ip := by
      rw [List.takeWhile_append_of_pos hipd]
      simp
    have hdrop : (ip ++ '.' :: fp).dropWhile (fun ch => ch != '.') = '.' :: fp := by
      rw [List.dropWhile_append_of_pos hipd]
      simp
    simp only [htake, hdrop, hlen2, if_false, hgroup, List.takeWhile_eq_self_iff.mpr hfpd]
  have hcomma := (digits_no_punctuation ip hip).2
  have hcommaf := (digits_no_punctuation fp hfp).2
  refine ⟨h1, h2, ?_, ?_, rfl⟩
  · rw [h1]
    exact groupSpec_filter ip hcomma true
  · rw [h2, List.filter_append, groupSpec_filter ip hcomma true]
    have hf : fp.filter (fun ch => ch != ',') = fp := by
      rw [List.filter_eq_self]
      intro ch hch
      have : ch ≠ ',' := fun h => hcommaf (h ▸ hch)
      simpa using this
    simp [List.filter_cons, hf]

/-- Witness for C13: "1234567" is shown as "1,234,567" and "1234.50" as "1,234.50". -/
theorem formatDisplayNumber_grouping_witness :
    formatDisplayNumber "1234567".toList = "1,234,567".toList ∧
    formatDisplayNumber "1234.50".toList = "1,234.50".toList :=
  ⟨(formatDisplayNumber_grouping "1234567".toList [] (by decide) (by decide) (by decide)
      (by decide)).1.trans (by decide),
   (formatDisplayNumber_grouping "1234".toList "50".toList (by decide) (by decide) (by decide)
      (by decide)).2.1.trans (by decide)⟩

/-- C14: the length test of `formatDisplayNumber` counts the minus sign. The
12-digit result "-100000000000" (left by `1`, `-`, `100000000001`, `=`) and the
text "-123456789012" are shown in scientific notation, while the same digits
without the sign are grouped. -/
theorem format_counts_minus_sign :
    run initial ([.digit 1, .operator .subtract] ++
        [1, 0, 0, 0, 0, 0, 0, 0, 0, 0, 0, 1].map UserAction.digit ++ [.equals])
      = ⟨"-100000000000".toList, [], none, true⟩ ∧
    formatDisplayNumber "-100000000000".toList = "-1.000000e+11".toList ∧
    formatDisplayNumber "100000000000".toList = "100,000,000,000".toList ∧
    formatDisplayNumber "-123456789012".toList = "-1.234568e+11".toList ∧
    formatDisplayNumber "123456789012".toList = "123,456,789,012".toList ∧
    formatDisplayNumber "-12345678901".toList = "-12,345,678,901".toList := by
  refine ⟨by decide!, by decide!, by decide!, by decide!, by decide!, by decide!⟩

/-- C16: an operator key that forces a division by zero shows the error, but
the state it leaves is not the initial one: after `clear()` the key is still
installed, with "0" as left operand and `resetScreen` set. -/
theorem operator_after_division_by_zero :
    run initial [.digit 1, .operator .divide, .digit 0] = ⟨['0'], ['1'], some ['÷'], false⟩ ∧
    handleOperation ⟨['0'], ['1'], some ['÷'], false⟩ ['+']
      = ⟨⟨['0'], ['0'], some ['+'], true⟩, some "Cannot divide by zero".toList⟩ ∧
    (handleOperation ⟨['0'], ['1'], some ['÷'], false⟩ ['+']).state ≠ initial ∧
    calculate ⟨['0'], ['1'], some ['÷'], false⟩
      = ⟨initial, some "Cannot divide by zero".toList⟩ := by
  refine ⟨by decide, by decide!, by decide!, by decide!⟩

end Calculator

/-! ## The function-based version -/

namespace Index

/-- C18: in src/index.js `chooseOperation` evaluates whenever `previousOperand`
is not empty, so `5`, `+`, `+` ends with "10" in both operands there and with
"5" in both operands in the class-based version. -/
theorem implementations_differ_on_repress :
    (∀ (s : State) (op : Str), s.currentOperand ≠ [] → s.previousOperand ≠ [] →
      chooseOperation s op =
        ⟨{ (calculate s).state with
            operation := some op
            previousOperand := (calculate s).state.currentOperand
            resetScreen := true }, (calculate s).alerted⟩) ∧
    run initial [.digit 5, .operator .add, .operator .add]
      = ⟨['1', '0'], ['1', '0'], some ['+'], true⟩ ∧
    Calculator.run Calculator.initial [.digit 5, .operator .add, .operator .add]
      = ⟨['5'], ['5'], some ['+'], true⟩ := by
  refine ⟨?_, by decide!, by decide⟩
  intro s op hc hp
  simp [chooseOperation, hc, hp]

/-- Witness for C18: the second `+` of `5`, `+`, `+` in src/index.js calls `calculate()`. -/
theorem implementations_differ_on_repress_witness :
    chooseOperation ⟨['5'], ['5'], some ['+'], true⟩ ['+']
      = ⟨⟨['1', '0'], ['1', '0'], some ['+'], true⟩, none⟩ :=
  (implementations_differ_on_repress.1 ⟨['5'], ['5'], some ['+'], true⟩ ['+']
    (by decide) (by decide)).trans (by decide!)

/-- C19: in src/index.js `clear()` leaves `resetScreen` as it was. After `5`,
`+` it is set, so the state after `clear()` is not the initial one, and a `.`
typed next gives "." where the initial state gives "0.". -/
theorem clear_keeps_resetScreen :
    run initial [.digit 5, .operator .add] = ⟨['5'], ['5'], some ['+'], true⟩ ∧
    clear ⟨['5'], ['5'], some ['+'], true⟩ = ⟨['0'], [], none, true⟩ ∧
    clear ⟨['5'], ['5'], some ['+'], true⟩ ≠ initial ∧
    appendNumber (clear ⟨['5'], ['5'], some ['+'], true⟩) ['.'] = ⟨['.'], [], none, false⟩ ∧
    appendNumber initial ['.'] = ⟨['0', '.'], [], none, false⟩ ∧
    Calculator.clear ⟨['5'], ['5'], some ['+'], true⟩ = Calculator.initial := by
  refine ⟨by decide, by decide, by decide, by decide, by decide, by decide⟩

end Index

/-! ## Exact rounding within limits

How far the binary64 arithmetic of `calculate()` stays from the exact result, and
that the text of a decimal with at most 15 significant digits denotes that decimal. -/

namespace JS

/-- `pow2 e` is the power `2 ^ e`. -/
theorem pow2_eq (e : Int) : pow2 e = (2 : ℚ) ^ e := by
  unfold pow2
  split_ifs with h
  · obtain ⟨n, rfl⟩ := Int.eq_ofNat_of_zero_le h
    simp
  · have h' : 0 ≤ -e := by omega
    obtain ⟨n, hn⟩ := Int.eq_ofNat_of_zero_le h'
    have he : e = -(n : Int) := by omega
    subst he
    simp

/-- `pow10 e` is the power `10 ^ e`. -/
theorem pow10_eq (e : Int) : pow10 e = (10 : ℚ) ^ e := by
  unfold pow10
  split_ifs with h
  · obtain ⟨n, rfl⟩ := Int.eq_ofNat_of_zero_le h
    simp
  · have h' : 0 ≤ -e := by omega
    obtain ⟨n, hn⟩ := Int.eq_ofNat_of_zero_le h'
    have he : e = -(n : Int) := by omega
    subst he
    simp

/-- The halving loop computes the floor of the binary logarithm. -/
theorem log2Aux_spec : ∀ (fuel n : Nat), n ≤ fuel → 1 ≤ n →
    2 ^ log2Aux fuel n ≤ n ∧ n < 2 ^ (log2Aux fuel n + 1) := by
  intro fuel
  induction fuel with
  | zero => intro n h1 h2; omega
  | succ fuel ih =>
    intro n h1 h2
    unfold log2Aux
    split_ifs with hn
    · have : n = 1 := by omega
      subst this
      simp
    · have hle : n / 2 ≤ fuel := by omega
      have hpos : 1 ≤ n / 2 := by omega
      obtain ⟨ha, hb⟩ := ih (n / 2) hle hpos
      constructor
      · rw [pow_succ]
        omega
      · rw [pow_succ]
        omega

/-- For a positive natural number, `2 ^ log2 n ≤ n < 2 ^ (log2 n + 1)`. -/
theorem log2_spec (n : Nat) (h : 1 ≤ n) : 2 ^ log2 n ≤ n ∧ n < 2 ^ (log2 n + 1) :=
  log2Aux_spec n n (le_refl n) h


/-- The binary exponent of a positive rational is not above it: `2 ^ binExp a ≤ a`. -/
theorem binExp_le (a : ℚ) (ha : 0 < a) : (2 : ℚ) ^ binExp a ≤ a := by
  unfold binExp
  simp only
  split_ifs with h
  · rw [← pow2_eq]
    exact h
  · have hnum : 0 < a.num := Rat.num_pos.mpr ha
    have hN : 1 ≤ a.num.natAbs := by omega
    have hD : 1 ≤ a.den := a.den_pos
    obtain ⟨hN1, _⟩ := log2_spec a.num.natAbs hN
    obtain ⟨_, hD2⟩ := log2_spec a.den hD
    have hNq : ((2 : ℚ) ^ (log2 a.num.natAbs)) ≤ (a.num.natAbs : ℚ) := by
      exact_mod_cast hN1
    have hDq : (a.den : ℚ) ≤ (2 : ℚ) ^ (log2 a.den + 1) := by
      exact_mod_cast hD2.le
    have hnumq : (a.num.natAbs : ℚ) = (a.num : ℚ) := by
      rw [Nat.cast_natAbs, abs_of_nonneg hnum.le]
    have hdenpos : (0 : ℚ) < a.den := by exact_mod_cast hD
    have hval : a = (a.num : ℚ) / (a.den : ℚ) := (Rat.num_div_den a).symm
    have hexp : (2 : ℚ) ^ ((log2 a.num.natAbs : ℤ) - (log2 a.den : ℤ) - 1)
        = (2 : ℚ) ^ (log2 a.num.natAbs) / (2 : ℚ) ^ (log2 a.den + 1) := by
      rw [show ((log2 a.num.natAbs : ℤ) - (log2 a.den : ℤ) - 1)
        = (log2 a.num.natAbs : ℤ) - ((log2 a.den + 1 : ℕ) : ℤ) by push_cast; ring]
      rw [zpow_sub₀ (by norm_num : (2 : ℚ) ≠ 0), zpow_natCast, zpow_natCast]
    rw [hexp]
    have hpow : (0 : ℚ) < (2 : ℚ) ^ (log2 a.den + 1) := by positivity
    refine le_of_le_of_eq ?_ hval.symm
    rw [div_le_div_iff₀ hpow hdenpos]
    calc (2 : ℚ) ^ (log2 a.num.natAbs) * (a.den : ℚ)
        ≤ (a.num.natAbs : ℚ) * (a.den : ℚ) := by
          exact mul_le_mul_of_nonneg_right hNq hdenpos.le
      _ ≤ (a.num.natAbs : ℚ) * (2 : ℚ) ^ (log2 a.den + 1) := by
          exact mul_le_mul_of_nonneg_left hDq (by positivity)
      _ = (a.num : ℚ) * (2 : ℚ) ^ (log2 a.den + 1) := by rw [hnumq]

/-- Rounding to the nearest integer moves a number by at most one half. -/
theorem roundHalfEven_close (t : ℚ) : |(roundHalfEven t : ℚ) - t| ≤ 1 / 2 := by
  have h1 : ((⌊t⌋ : ℤ) : ℚ) ≤ t := Int.floor_le t
  have h2 : t < (⌊t⌋ : ℤ) + 1 := Int.lt_floor_add_one t
  unfold roundHalfEven
  simp only
  split_ifs with ha hb hc
  · rw [abs_le]; constructor <;> linarith
  · rw [abs_le]; constructor <;> push_cast <;> linarith
  · have : t - (⌊t⌋ : ℤ) = 1 / 2 := le_antisymm (not_lt.mp hb) (not_lt.mp ha)
    rw [abs_le]; constructor <;> linarith
  · have : t - (⌊t⌋ : ℤ) = 1 / 2 := le_antisymm (not_lt.mp hb) (not_lt.mp ha)
    rw [abs_le]; constructor <;> push_cast <;> linarith

/-- Rounding a non-negative number to the nearest integer gives a non-negative integer. -/
theorem roundHalfEven_nonneg (t : ℚ) (ht : 0 ≤ t) : 0 ≤ roundHalfEven t := by
  have h0 : (0 : ℤ) ≤ ⌊t⌋ := Int.floor_nonneg.mpr ht
  unfold roundHalfEven
  simp only
  split_ifs <;> omega


/-- Rounding a positive real to binary64: no overflow below `2 ^ 1000`, a
non-negative result, and an error of at most `a / 2 ^ 53 + 1 / 2 ^ 1075`. -/
theorem toDouble_pos (a : ℚ) (ha : 0 < a) (hb : a ≤ 2 ^ 1000) :
    ∃ x, toDouble a = .fin x ∧ 0 ≤ x ∧ |x - a| ≤ a / 2 ^ 53 + 1 / 2 ^ 1075 := by
  have hne : a ≠ 0 := ne_of_gt ha
  have habs : |a| = a := abs_of_pos ha
  have hnl : ¬(a < 0) := not_lt.mpr ha.le
  set e : ℤ := max (binExp a - 52) (-1074) with he
  have hpe : (0 : ℚ) < (2 : ℚ) ^ e := by positivity
  -- the size of the rounding step
  have hstep : (2 : ℚ) ^ e ≤ a / 2 ^ 52 + 1 / 2 ^ 1074 := by
    rcases max_cases (binExp a - 52) (-1074) with ⟨h1, _⟩ | ⟨h1, _⟩
    · rw [he, h1, zpow_sub₀ (by norm_num : (2 : ℚ) ≠ 0)]
      have hb2 := binExp_le a ha
      have h52 : ((2 : ℚ) ^ (52 : ℤ)) = 2 ^ 52 := by norm_num
      rw [h52]
      have : (2 : ℚ) ^ binExp a / 2 ^ 52 ≤ a / 2 ^ 52 := by
        apply div_le_div_of_nonneg_right hb2 (by positivity)
      have h0 : (0 : ℚ) ≤ 1 / 2 ^ 1074 := by positivity
      linarith
    · rw [he, h1]
      have h1074 : ((2 : ℚ) ^ (-1074 : ℤ)) = 1 / 2 ^ 1074 := by
        rw [zpow_neg, one_div]
        norm_num
      rw [h1074]
      have h0 : (0 : ℚ) ≤ a / 2 ^ 52 := by positivity
      linarith
  set t : ℚ := a / (2 : ℚ) ^ e with ht
  have htn : 0 ≤ t := by positivity
  set r : ℚ := (roundHalfEven t : ℚ) * (2 : ℚ) ^ e with hr
  have hr0 : 0 ≤ r := by
    have := roundHalfEven_nonneg t htn
    have h2 : (0 : ℚ) ≤ (roundHalfEven t : ℚ) := by exact_mod_cast this
    exact mul_nonneg h2 hpe.le
  have herr : |r - a| ≤ a / 2 ^ 53 + 1 / 2 ^ 1075 := by
    have hat : a = t * (2 : ℚ) ^ e := by
      rw [ht]
      field_simp
    have h1 : r - a = ((roundHalfEven t : ℚ) - t) * (2 : ℚ) ^ e := by
      rw [hr]
      conv_lhs => rw [hat]
      ring
    rw [h1, abs_mul, abs_of_pos hpe]
    have h2 := roundHalfEven_close t
    calc |(roundHalfEven t : ℚ) - t| * (2 : ℚ) ^ e
        ≤ 1 / 2 * (2 : ℚ) ^ e := by
          exact mul_le_mul_of_nonneg_right h2 hpe.le
      _ ≤ 1 / 2 * (a / 2 ^ 52 + 1 / 2 ^ 1074) := by
          exact mul_le_mul_of_nonneg_left hstep (by norm_num)
      _ = a / 2 ^ 53 + 1 / 2 ^ 1075 := by ring
  have hno : ¬(pow2 1024 ≤ r) := by
    rw [pow2_eq]
    have h3 : r ≤ a + (a / 2 ^ 53 + 1 / 2 ^ 1075) := by
      have := (abs_le.mp herr).2
      linarith
    have h4 : a / 2 ^ 53 ≤ a := by
      apply div_le_self ha.le
      norm_num
    have h5 : (1 : ℚ) / 2 ^ 1075 ≤ 1 := by
      rw [div_le_one (by positivity)]
      exact one_le_pow₀ (by norm_num)
    have h6 : ((2 : ℚ) ^ (1024 : ℤ)) = 2 ^ 1000 * 2 ^ 24 := by
      rw [show (1024 : ℤ) = ((1024 : ℕ) : ℤ) by norm_num, zpow_natCast, ← pow_add]
    rw [h6]
    have h7 : (1 : ℚ) ≤ 2 ^ 1000 := one_le_pow₀ (by norm_num)
    have h8 : (0 : ℚ) < 2 ^ 1000 := by positivity
    intro hcon
    have h9 : (2 : ℚ) ^ 1000 * 2 ^ 24 ≤ 2 ^ 1000 + 2 ^ 1000 + 2 ^ 1000 := by linarith
    have h10 : (2 : ℚ) ^ 24 = 16777216 := by norm_num
    rw [h10] at h9
    linarith
  refine ⟨r, ?_, hr0, herr⟩
  unfold toDouble
  rw [if_neg hne]
  simp only [habs, pow2_eq]
  rw [← he, ← ht, ← hr]
  rw [← pow2_eq 1024, if_neg hno, if_neg hnl]

/-- Rounding to binary64 commutes with the change of sign. -/
theorem toDouble_neg (q : ℚ) : toDouble (-q) = (toDouble q).neg := by
  by_cases h0 : q = 0
  · subst h0
    simp [toDouble, Number.neg]
  · have h0' : -q ≠ 0 := neg_ne_zero.mpr h0
    unfold toDouble
    rw [if_neg h0, if_neg h0']
    simp only [abs_neg]
    rcases lt_or_gt_of_ne h0 with hlt | hgt
    · have h1 : ¬(-q < 0) := by linarith [hlt]
      split_ifs <;> simp_all [Number.neg]
    · have h1 : ¬(q < 0) := not_lt.mpr hgt.le
      have h2 : -q < 0 := by linarith
      split_ifs <;> simp_all [Number.neg]

/-- Rounding a real of magnitude at most `2 ^ 1000` to binary64 gives a finite
value within `|q| / 2 ^ 53 + 1 / 2 ^ 1075` of it. -/
theorem toDouble_close (q : ℚ) (hq : |q| ≤ 2 ^ 1000) :
    ∃ x, toDouble q = .fin x ∧ |x - q| ≤ |q| / 2 ^ 53 + 1 / 2 ^ 1075 := by
  rcases lt_trichotomy q 0 with hlt | heq | hgt
  · have hpos : 0 < -q := by linarith
    have habs : |q| = -q := abs_of_neg hlt
    obtain ⟨x, hx, _, herr⟩ := toDouble_pos (-q) hpos (by rw [← habs]; exact hq)
    refine ⟨-x, ?_, ?_⟩
    · have := toDouble_neg (-q)
      rw [neg_neg, hx] at this
      rw [this]
      rfl
    · rw [habs]
      have : -x - q = -(x - -q) := by ring
      rw [this, abs_neg]
      exact herr
  · subst heq
    refine ⟨0, by simp [toDouble], ?_⟩
    simp
  · have habs : |q| = q := abs_of_pos hgt
    obtain ⟨x, hx, _, herr⟩ := toDouble_pos q hgt (by rw [← habs]; exact hq)
    exact ⟨x, hx, by rw [habs]; exact herr⟩


/-- The digit loop of `Nat.toDigits`, with enough fuel, puts the digits of `n`
in front of what it was given. -/
theorem toDigitsCore_append (n : Nat) : ∀ (fuel : Nat) (ds : List Char), n < fuel →
    Nat.toDigitsCore 10 fuel n ds = decDigits n ++ ds := by
  induction n using Nat.strong_induction_on with
  | _ n ih =>
    intro fuel ds hf
    cases fuel with
    | zero => exact absurd hf (Nat.not_lt_zero _)
    | succ f =>
      unfold decDigits Nat.toDigits
      unfold Nat.toDigitsCore
      simp only
      by_cases h0 : n / 10 = 0
      · rw [if_pos h0, if_pos h0]
        rfl
      · rw [if_neg h0, if_neg h0]
        have hlt : n / 10 < n := Nat.div_lt_self (by omega) (by decide)
        rw [ih (n / 10) hlt f _ (by omega), ih (n / 10) hlt n _ hlt]
        simp

/-- The decimal digits of a number: those of `n / 10`, then the last digit. -/
theorem decDigits_step (n : Nat) (h : 10 ≤ n) :
    decDigits n = decDigits (n / 10) ++ [Nat.digitChar (n % 10)] := by
  have h0 : n / 10 ≠ 0 := by omega
  have hlt : n / 10 < n := Nat.div_lt_self (by omega) (by decide)
  conv_lhs => unfold decDigits Nat.toDigits Nat.toDigitsCore
  simp only
  rw [if_neg h0, toDigitsCore_append (n / 10) n _ hlt]

/-- A number below ten has one digit. -/
theorem decDigits_small (n : Nat) (h : n < 10) : decDigits n = [Nat.digitChar n] := by
  have h0 : n / 10 = 0 := by omega
  unfold decDigits Nat.toDigits Nat.toDigitsCore
  simp only
  rw [if_pos h0, Nat.mod_eq_of_lt h]

/-- The value of a digit string with one more digit. -/
theorem digitsValue_append_singleton (ds : Str) (c : Char) :
    digitsValue (ds ++ [c]) = 10 * digitsValue ds + (c.toNat - 48) := by
  simp [digitsValue, List.foldl_append]

/-- The code of a digit character. -/
theorem digitChar_toNat (m : Nat) (h : m < 10) : (Nat.digitChar m).toNat - 48 = m := by
  have hall : ∀ m, m < 10 → (Nat.digitChar m).toNat - 48 = m := by decide
  exact hall m h

/-- A digit character is a digit. -/
theorem digitChar_isDigit_of_lt (m : Nat) (h : m < 10) : (Nat.digitChar m).isDigit = true := by
  have hall : ∀ m, m < 10 → (Nat.digitChar m).isDigit = true := by decide
  exact hall m h

/-- The decimal digits of a number denote that number. -/
theorem digitsValue_decDigits (n : Nat) : digitsValue (decDigits n) = n := by
  induction n using Nat.strong_induction_on with
  | _ n ih =>
    by_cases h : n < 10
    · rw [decDigits_small n h]
      simp [digitsValue, digitChar_toNat n h]
    · have h10 : 10 ≤ n := by omega
      rw [decDigits_step n h10, digitsValue_append_singleton,
        ih (n / 10) (Nat.div_lt_self (by omega) (by decide)),
        digitChar_toNat _ (Nat.mod_lt _ (by decide))]
      omega

/-- The decimal digits of a number are digits. -/
theorem decDigits_all_digits (n : Nat) : ∀ c ∈ decDigits n, c.isDigit = true := by
  induction n using Nat.strong_induction_on with
  | _ n ih =>
    by_cases h : n < 10
    · rw [decDigits_small n h]
      intro c hc
      simp only [List.mem_singleton] at hc
      rw [hc]
      exact digitChar_isDigit_of_lt n h
    · have h10 : 10 ≤ n := by omega
      rw [decDigits_step n h10]
      intro c hc
      rcases List.mem_append.mp hc with hc | hc
      · exact ih (n / 10) (Nat.div_lt_self (by omega) (by decide)) c hc
      · simp only [List.mem_singleton] at hc
        rw [hc]
        exact digitChar_isDigit_of_lt _ (Nat.mod_lt _ (by decide))

/-- A number with `10 ^ (k - 1) ≤ n < 10 ^ k` has `k` decimal digits. -/
theorem decDigits_length (k : Nat) : ∀ n : Nat, 10 ^ k ≤ n → n < 10 ^ (k + 1) →
    (decDigits n).length = k + 1 := by
  induction k with
  | zero =>
    intro n _ h2
    rw [decDigits_small n (by simpa using h2)]
    rfl
  | succ k ih =>
    intro n h1 h2
    have h10 : 10 ≤ n := by
      have : 10 ^ 1 ≤ 10 ^ (k + 1) := Nat.pow_le_pow_right (by decide) (by omega)
      omega
    rw [decDigits_step n h10, List.length_append, List.length_singleton]
    have h3 : 10 ^ k ≤ n / 10 := by
      rw [Nat.le_div_iff_mul_le (by decide)]
      calc 10 ^ k * 10 = 10 ^ (k + 1) := by ring
        _ ≤ n := h1
    have h4 : n / 10 < 10 ^ (k + 1) := by
      rw [Nat.div_lt_iff_lt_mul (by decide)]
      calc n < 10 ^ (k + 1 + 1) := h2
        _ = 10 ^ (k + 1) * 10 := by ring
    rw [ih (n / 10) h3 h4]

/-- The number of decimal digits of a positive number brackets it between
powers of ten. -/
theorem decDigits_length_spec (n : Nat) (h : 1 ≤ n) :
    10 ^ ((decDigits n).length - 1) ≤ n ∧ n < 10 ^ (decDigits n).length := by
  induction n using Nat.strong_induction_on with
  | _ n ih =>
    by_cases hs : n < 10
    · rw [decDigits_small n hs]
      simp only [List.length_singleton]
      omega
    · have h10 : 10 ≤ n := by omega
      have hd := ih (n / 10) (Nat.div_lt_self (by omega) (by decide)) (by omega)
      rw [decDigits_step n h10, List.length_append, List.length_singleton]
      have hpos : 1 ≤ (decDigits (n / 10)).length := by
        have := decDigits_ne_nil (n / 10)
        cases hl : decDigits (n / 10) with
        | nil => exact absurd hl this
        | cons a b => simp
      obtain ⟨k, hk⟩ : ∃ k, (decDigits (n / 10)).length = k + 1 := ⟨_, (Nat.sub_add_cancel hpos).symm⟩
      rw [hk] at hd ⊢
      simp only [Nat.add_sub_cancel] at hd ⊢
      constructor
      · have := (Nat.le_div_iff_mul_le (by decide : 0 < 10)).mp hd.1
        calc 10 ^ (k + 1) = 10 ^ k * 10 := by ring
          _ ≤ n := this
      · have := (Nat.div_lt_iff_lt_mul (by decide : 0 < 10)).mp hd.2
        calc n < 10 ^ (k + 1) * 10 := this
          _ = 10 ^ (k + 1 + 1) := by ring


/-- The decimal exponent brackets a positive real between powers of ten. -/
theorem decExp_spec (x : ℚ) (hx : 0 < x) :
    (10 : ℚ) ^ (decExp x - 1) ≤ x ∧ x < (10 : ℚ) ^ decExp x := by
  unfold decExp
  by_cases h1 : 1 ≤ x
  · rw [if_pos h1]
    have hfl : (1 : ℤ) ≤ ⌊x⌋ := Int.le_floor.mpr (by exact_mod_cast h1)
    set n0 : ℕ := ⌊x⌋.toNat with hn0
    have hn0z : (n0 : ℤ) = ⌊x⌋ := Int.toNat_of_nonneg (by omega)
    have hn1 : 1 ≤ n0 := by omega
    obtain ⟨ha, hb⟩ := decDigits_length_spec n0 hn1
    set L := (decDigits n0).length with hL
    have hLpos : 1 ≤ L := by
      rcases Nat.eq_zero_or_pos L with h | h
      · rw [h] at hb
        simp at hb
        omega
      · exact h
    have hn0q : (n0 : ℚ) = ((⌊x⌋ : ℤ) : ℚ) := by exact_mod_cast congrArg (Int.cast : ℤ → ℚ) hn0z
    have e1 : ((L : ℤ) - 1) = ((L - 1 : ℕ) : ℤ) := by omega
    constructor
    · rw [e1, zpow_natCast]
      calc (10 : ℚ) ^ (L - 1) ≤ (n0 : ℚ) := by exact_mod_cast ha
        _ = ((⌊x⌋ : ℤ) : ℚ) := hn0q
        _ ≤ x := Int.floor_le x
    · rw [zpow_natCast]
      calc x < ((⌊x⌋ : ℤ) : ℚ) + 1 := Int.lt_floor_add_one x
        _ = (n0 : ℚ) + 1 := by rw [hn0q]
        _ ≤ (10 : ℚ) ^ L := by exact_mod_cast hb
  · rw [if_neg h1]
    have hx1 : x < 1 := not_le.mp h1
    have hinv : 1 < 1 / x := by
      rw [lt_div_iff₀ hx]
      linarith
    have hce : (2 : ℤ) ≤ ⌈1 / x⌉ := by
      have : (1 : ℤ) < ⌈1 / x⌉ := Int.lt_ceil.mpr (by exact_mod_cast hinv)
      omega
    set c : ℕ := ⌈1 / x⌉.toNat - 1 with hc
    have hcz : (c : ℤ) = ⌈1 / x⌉ - 1 := by omega
    have hc1 : 1 ≤ c := by omega
    obtain ⟨ha, hb⟩ := decDigits_length_spec c hc1
    set L := (decDigits c).length with hL
    have hLpos : 1 ≤ L := by
      rcases Nat.eq_zero_or_pos L with h | h
      · rw [h] at hb
        simp at hb
        omega
      · exact h
    have hcq : (c : ℚ) = ((⌈1 / x⌉ : ℤ) : ℚ) - 1 := by
      have := congrArg (Int.cast : ℤ → ℚ) hcz
      push_cast at this
      exact this
    have hlow : (c : ℚ) < 1 / x := by
      rw [hcq]
      have := Int.ceil_lt_add_one (1 / x)
      linarith
    have hup : 1 / x ≤ (c : ℚ) + 1 := by
      rw [hcq]
      have := Int.le_ceil (1 / x)
      linarith
    have hp10 : (0 : ℚ) < (10 : ℚ) ^ L := by positivity
    have hp10' : (0 : ℚ) < (10 : ℚ) ^ (L - 1) := by positivity
    constructor
    · have e1 : (1 - (L : ℤ) - 1) = -((L : ℕ) : ℤ) := by omega
      rw [e1, zpow_neg, zpow_natCast]
      have h2 : 1 / x ≤ (10 : ℚ) ^ L := by
        calc 1 / x ≤ (c : ℚ) + 1 := hup
          _ ≤ (10 : ℚ) ^ L := by exact_mod_cast hb
      rw [inv_eq_one_div, div_le_iff₀ hp10]
      rw [div_le_iff₀ hx] at h2
      linarith
    · have e1 : (1 - (L : ℤ)) = -((L - 1 : ℕ) : ℤ) := by omega
      rw [e1, zpow_neg, zpow_natCast]
      have h2 : (10 : ℚ) ^ (L - 1) < 1 / x := by
        calc (10 : ℚ) ^ (L - 1) ≤ (c : ℚ) := by exact_mod_cast ha
          _ < 1 / x := hlow
      rw [inv_eq_one_div, lt_div_iff₀ hp10']
      rw [lt_div_iff₀ hx] at h2
      linarith


/-- What a successful `shortest` returns: one of the two neighbours of the
scaled value, which rounds to `x`, with the carry into a further digit undone. -/
theorem shortest_some (x : ℚ) (k : Nat) (r : Nat × Int) (h : shortest x k = some r) :
    ∃ s : ℤ, (s = ⌊x / pow10 (decExp x - k)⌋ ∨ s = ⌊x / pow10 (decExp x - k)⌋ + 1) ∧
      toDouble ((s : ℚ) * pow10 (decExp x - k)) = .fin x ∧
      r = (if s = (10 : ℤ) ^ k then (10 ^ (k - 1), decExp x + 1) else (s.toNat, decExp x)) := by
  unfold shortest at h
  simp only [Option.map_eq_some'] at h
  obtain ⟨s, hpick, hres⟩ := h
  refine ⟨s, ?_, ?_, hres.symm⟩
  · split_ifs at hpick <;> simp_all
  · split_ifs at hpick with h1 h2 h3 h4 h5 h6 <;>
      simp only [Option.some.injEq, Bool.and_eq_true, decide_eq_true_eq] at hpick h1 <;>
      first
        | (subst hpick; exact h1.1)
        | (subst hpick; exact h1.2)
        | (subst hpick; simp only [decide_eq_true_eq] at h5; exact h5)
        | (subst hpick; simp only [decide_eq_true_eq] at h6; exact h6)

/-- When one of the two neighbours of the scaled value rounds to `x`,
`shortest` succeeds. -/
theorem shortest_ne_none (x : ℚ) (k : Nat) (j : ℤ)
    (hj : j = ⌊x / pow10 (decExp x - k)⌋ ∨ j = ⌊x / pow10 (decExp x - k)⌋ + 1)
    (hr : toDouble ((j : ℚ) * pow10 (decExp x - k)) = .fin x) :
    shortest x k ≠ none := by
  unfold shortest
  simp only [ne_eq, Option.map_eq_none']
  rcases hj with hj | hj
  · subst hj
    simp only [hr, decide_True, Bool.true_and]
    split_ifs <;> simp
  · subst hj
    simp only [hr, decide_True, Bool.and_true]
    split_ifs <;> simp

/-- The search finds the first number of digits for which `shortest` succeeds. -/
theorem shortestFrom_found (x : ℚ) (kmax : Nat) (hmax : shortest x kmax ≠ none) :
    ∀ (fuel k : Nat), k ≤ kmax → kmax < k + fuel →
      ∃ k1 r, k ≤ k1 ∧ k1 ≤ kmax ∧ shortest x k1 = some r ∧
        shortestFrom x fuel k = (k1, r.1, r.2) := by
  intro fuel
  induction fuel with
  | zero =>
    intro k h1 h2
    omega
  | succ fuel ih =>
    intro k h1 h2
    unfold shortestFrom
    cases hs : shortest x k with
    | some r =>
      exact ⟨k, r, le_refl _, h1, hs, rfl⟩
    | none =>
      have hne : k ≠ kmax := by
        intro he
        rw [he] at hs
        exact hmax hs
      obtain ⟨k1, r, ha, hb, hc, hd⟩ := ih (k + 1) (by omega) (by omega)
      exact ⟨k1, r, by omega, hb, hc, hd⟩


/-- Rounding a real of moderate size to binary64 changes it by a relative
`2 ^ (-52)` at most. -/
theorem toDouble_rel (q : ℚ) (h1 : 1 / 10 ^ 9 ≤ |q|) (h2 : |q| ≤ 10 ^ 9) :
    ∃ x, toDouble q = .fin x ∧ |x - q| ≤ |q| / 2 ^ 52 := by
  have hb : |q| ≤ 2 ^ 1000 := by
    have h30 : (10 : ℚ) ^ 9 ≤ 2 ^ 30 := by norm_num
    have h1000 : (2 : ℚ) ^ 30 ≤ 2 ^ 1000 := pow_le_pow_right₀ (by norm_num) (by norm_num)
    linarith
  obtain ⟨x, hx, he⟩ := toDouble_close q hb
  refine ⟨x, hx, ?_⟩
  have hη : (1 : ℚ) / 2 ^ 1075 ≤ |q| / 2 ^ 53 := by
    have e : (2 : ℚ) ^ 1075 = 2 ^ 53 * 2 ^ 1022 := by rw [← pow_add]
    rw [e]
    have h30 : (2 : ℚ) ^ 30 ≤ 2 ^ 1022 := pow_le_pow_right₀ (by norm_num) (by norm_num)
    have h9 : (10 : ℚ) ^ 9 ≤ 2 ^ 30 := by norm_num
    have hp : (0 : ℚ) < 2 ^ 1022 := by positivity
    have h3 : (1 : ℚ) / 2 ^ 1022 ≤ 1 / 10 ^ 9 :=
      one_div_le_one_div_of_le (by norm_num) (h9.trans h30)
    calc (1 : ℚ) / (2 ^ 53 * 2 ^ 1022) = (1 / 2 ^ 1022) / 2 ^ 53 := by
          rw [div_div, mul_comm]
      _ ≤ |q| / 2 ^ 53 := by
          apply div_le_div_of_nonneg_right (h3.trans h1)
          positivity
  calc |x - q| ≤ |q| / 2 ^ 53 + 1 / 2 ^ 1075 := he
    _ ≤ |q| / 2 ^ 53 + |q| / 2 ^ 53 := by linarith
    _ = |q| / 2 ^ 52 := by ring

/-- An integer within one of a real is its floor or the next integer. -/
theorem floor_neighbour (a : ℚ) (j : ℤ) (h : |a - j| < 1) : j = ⌊a⌋ ∨ j = ⌊a⌋ + 1 := by
  obtain ⟨h1, h2⟩ := abs_lt.mp h
  by_cases hle : (j : ℚ) ≤ a
  · left
    symm
    rw [Int.floor_eq_iff]
    constructor
    · exact hle
    · linarith
  · right
    have : ⌊a⌋ = j - 1 := by
      rw [Int.floor_eq_iff]
      push_cast
      constructor
      · linarith
      · linarith
    omega

/-- Two integer multiples of a positive step that differ by less than the step
are the same multiple. -/
theorem multiple_unique (a b : ℤ) (g : ℚ) (hg : 0 < g) (h : |(a : ℚ) * g - b * g| < g) :
    a = b := by
  have h1 : |((a - b : ℤ) : ℚ)| < 1 := by
    have e : (a : ℚ) * g - b * g = ((a - b : ℤ) : ℚ) * g := by push_cast; ring
    rw [e, abs_mul, abs_of_pos hg] at h
    by_contra hcon
    have : g ≤ |((a - b : ℤ) : ℚ)| * g := by
      have := mul_le_mul_of_nonneg_right (not_lt.mp hcon) hg.le
      linarith
    linarith
  have h2 : |(a - b : ℤ)| < 1 := by
    have : ((|(a - b : ℤ)| : ℤ) : ℚ) < ((1 : ℤ) : ℚ) := by
      rw [Int.cast_abs]
      exact_mod_cast h1
    exact_mod_cast this
  have := Int.abs_lt_one_iff.mp h2
  omega


/-- Two rounding errors of relative size `2 ^ (-52)` stay below one unit of the
fifteenth significant digit. -/
theorem err_below_digit15 (T : ℚ) (hT : 0 < T) :
    T * (1001 / 1000) / 2 ^ 52 < T / 10 ^ 15 ∧
      T / 2 ^ 52 + T * (1001 / 1000) / 2 ^ 52 < T / 10 ^ 15 := by
  have e1 : T * (1001 / 1000) / 2 ^ 52 = T * (1001 / 1000 / 2 ^ 52) := by ring
  have e2 : T / 2 ^ 52 + T * (1001 / 1000) / 2 ^ 52 = T * (2001 / 1000 / 2 ^ 52) := by ring
  have e3 : T / 10 ^ 15 = T * (1 / 10 ^ 15) := by ring
  constructor
  · rw [e1, e3]
    exact mul_lt_mul_of_pos_left (by norm_num) hT
  · rw [e2, e3]
    exact mul_lt_mul_of_pos_left (by norm_num) hT

/-- The binary64 nearest to a decimal `K / 10 ^ 8` with `1 ≤ K < 10 ^ 15`: it
is positive, within a relative `2 ^ (-52)` of the decimal, and its decimal
exponent lies between `-8` and `7`. -/
theorem decimal_range (K : ℕ) (x : ℚ) (hK1 : 1 ≤ K) (hK2 : K < 10 ^ 15)
    (hx : toDouble ((K : ℚ) / 10 ^ 8) = .fin x) :
    0 < x ∧ |x - (K : ℚ) / 10 ^ 8| ≤ (K : ℚ) / 10 ^ 8 / 2 ^ 52 ∧
      -8 ≤ decExp x ∧ decExp x ≤ 7 ∧
      (K : ℚ) / 10 ^ 8 ≤ (10 : ℚ) ^ decExp x * (1001 / 1000) := by
  have h10 : (10 : ℚ) ≠ 0 := by norm_num
  have h110 : (1 : ℚ) ≤ 10 := by norm_num
  generalize hD : (K : ℚ) / 10 ^ 8 = D at hx ⊢
  have hKq1 : (1 : ℚ) ≤ K := by exact_mod_cast hK1
  have hKq2 : (K : ℚ) ≤ 10 ^ 15 - 1 := by
    have h : K + 1 ≤ 10 ^ 15 := hK2
    have h' : ((K + 1 : ℕ) : ℚ) ≤ ((10 ^ 15 : ℕ) : ℚ) := by exact_mod_cast h
    push_cast at h'
    linarith
  have hD1 : (1 : ℚ) / 10 ^ 8 ≤ D := by
    rw [← hD]
    apply div_le_div_of_nonneg_right hKq1
    positivity
  have hD2 : D ≤ 10 ^ 7 - 1 / 10 ^ 8 := by
    rw [← hD, div_le_iff₀ (by positivity)]
    have : ((10 : ℚ) ^ 7 - 1 / 10 ^ 8) * 10 ^ 8 = 10 ^ 15 - 1 := by norm_num
    rw [this]
    exact hKq2
  have hDpos : 0 < D := lt_of_lt_of_le (by positivity) hD1
  have hDabs : |D| = D := abs_of_pos hDpos
  obtain ⟨x1, hx1, hxe⟩ := toDouble_rel D (by rw [hDabs]; linarith [hD1])
    (by rw [hDabs]; linarith [hD2])
  rw [hx] at hx1
  cases hx1
  rw [hDabs] at hxe
  obtain ⟨hxl, hxu⟩ := abs_le.mp hxe
  have hε : D / 2 ^ 52 ≤ D / 1000 :=
    div_le_div_of_nonneg_left hDpos.le (by norm_num) (by norm_num)
  have hxpos : 0 < x := by linarith
  have hx7 : x < 10 ^ 7 := by
    have h1 : D / 2 ^ 52 ≤ 10 ^ 7 / 2 ^ 52 :=
      div_le_div_of_nonneg_right (by linarith) (by positivity)
    have h2 : (10 : ℚ) ^ 7 / 2 ^ 52 < 1 / 10 ^ 8 := by norm_num
    linarith
  have hx9 : 1 / 10 ^ 9 < x := by
    have h2 : (1 : ℚ) / 10 ^ 9 < 1 / 10 ^ 8 * (999 / 1000) := by norm_num
    linarith
  obtain ⟨hm1, hm2⟩ := decExp_spec x hxpos
  refine ⟨hxpos, hxe, ?_, ?_, by linarith⟩
  · by_contra hcon
    have h9 : decExp x ≤ -9 := by omega
    have := zpow_le_zpow_right₀ h110 h9
    have e9 : (10 : ℚ) ^ (-9 : ℤ) = 1 / 10 ^ 9 := by norm_num
    rw [e9] at this
    linarith
  · by_contra hcon
    have h8 : (7 : ℤ) ≤ decExp x - 1 := by omega
    have := zpow_le_zpow_right₀ h110 h8
    have e7 : (10 : ℚ) ^ (7 : ℤ) = 10 ^ 7 := by norm_num
    rw [e7] at this
    linarith

/-- A decimal that is a multiple of `10 ^ e` and lies within a relative
`2 ^ (-52)` of `x` is one of the two candidates of `shortest` with
`decExp x - e` digits. -/
theorem shortest_finds (x D : ℚ) (e j : ℤ) (kmax : ℕ)
    (hxe : |x - D| ≤ D / 2 ^ 52) (hDT : D ≤ (10 : ℚ) ^ decExp x * (1001 / 1000))
    (hx : toDouble D = .fin x) (hem : decExp x - 15 ≤ e) (hjD : (j : ℚ) * (10 : ℚ) ^ e = D)
    (hk : decExp x - (kmax : ℤ) = e) :
    shortest x kmax ≠ none := by
  have h10 : (10 : ℚ) ≠ 0 := by norm_num
  have h110 : (1 : ℚ) ≤ 10 := by norm_num
  have hTpos : (0 : ℚ) < (10 : ℚ) ^ decExp x := by positivity
  have hGpos : (0 : ℚ) < (10 : ℚ) ^ e := by positivity
  have hT15 : (10 : ℚ) ^ (decExp x - 15) = (10 : ℚ) ^ decExp x / 10 ^ 15 := by
    rw [zpow_sub₀ h10]
    norm_num
  have hGT : (10 : ℚ) ^ decExp x / 10 ^ 15 ≤ (10 : ℚ) ^ e := by
    rw [← hT15]
    exact zpow_le_zpow_right₀ h110 hem
  have hxDG : |x - D| < (10 : ℚ) ^ e :=
    calc |x - D| ≤ D / 2 ^ 52 := hxe
      _ ≤ (10 : ℚ) ^ decExp x * (1001 / 1000) / 2 ^ 52 :=
          div_le_div_of_nonneg_right hDT (by positivity)
      _ < (10 : ℚ) ^ decExp x / 10 ^ 15 := (err_below_digit15 _ hTpos).1
      _ ≤ (10 : ℚ) ^ e := hGT
  have hcand : j = ⌊x / (10 : ℚ) ^ e⌋ ∨ j = ⌊x / (10 : ℚ) ^ e⌋ + 1 := by
    apply floor_neighbour
    have e1 : x / (10 : ℚ) ^ e - j = (x - D) / (10 : ℚ) ^ e := by
      rw [← hjD]
      field_simp
      ring
    rw [e1, abs_div, abs_of_pos hGpos, div_lt_one hGpos]
    exact hxDG
  apply shortest_ne_none x kmax j
  · rw [pow10_eq, hk]
    exact hcand
  · rw [pow10_eq, hk, hjD]
    exact hx

/-- Any candidate `shortest` accepts with at most `decExp x - e` digits is the
decimal itself, when the decimal is a multiple of `10 ^ e`, has at most 15
significant digits and rounds to `x`. -/
theorem shortest_exact (x D : ℚ) (e j : ℤ) (k1 : ℕ) (r : Nat × Int) (hxpos : 0 < x)
    (hxe : |x - D| ≤ D / 2 ^ 52) (hDT : D ≤ (10 : ℚ) ^ decExp x * (1001 / 1000))
    (hmge : -8 ≤ decExp x) (hmle : decExp x ≤ 7)
    (hem : decExp x - 15 ≤ e) (hjD : (j : ℚ) * (10 : ℚ) ^ e = D)
    (hk1 : 1 ≤ k1) (hk : (k1 : ℤ) ≤ decExp x - e) (hsh : shortest x k1 = some r) :
    10 ^ (k1 - 1) ≤ r.1 ∧ r.1 < 10 ^ k1 ∧ (r.1 : ℚ) * (10 : ℚ) ^ (r.2 - (k1 : ℤ)) = D := by
  have h10 : (10 : ℚ) ≠ 0 := by norm_num
  have h110 : (1 : ℚ) ≤ 10 := by norm_num
  obtain ⟨hm1, hm2⟩ := decExp_spec x hxpos
  obtain ⟨s, hs, hsr, hr⟩ := shortest_some x k1 r hsh
  rw [pow10_eq] at hs hsr
  generalize hm : decExp x = m at *
  generalize hT : (10 : ℚ) ^ m = T at *
  generalize hG : (10 : ℚ) ^ e = G at *
  have hTpos : 0 < T := by rw [← hT]; positivity
  have hGpos : 0 < G := by rw [← hG]; positivity
  have hT1 : (10 : ℚ) ^ (m - 1) = T / 10 := by
    rw [zpow_sub_one₀ h10, hT]
    rfl
  rw [hT1] at hm1
  have hT7 : T ≤ 10 ^ 7 := by
    have := zpow_le_zpow_right₀ h110 hmle
    have e7 : (10 : ℚ) ^ (7 : ℤ) = 10 ^ 7 := by norm_num
    rw [e7, hT] at this
    exact this
  have hT8 : 1 / 10 ^ 8 ≤ T := by
    have := zpow_le_zpow_right₀ h110 hmge
    have e8 : (10 : ℚ) ^ (-8 : ℤ) = 1 / 10 ^ 8 := by norm_num
    rw [e8, hT] at this
    exact this
  have hT15 : (10 : ℚ) ^ (m - 15) = T / 10 ^ 15 := by
    rw [zpow_sub₀ h10, hT]
    norm_num
  have hGT : T / 10 ^ 15 ≤ G := by
    rw [← hT15, ← hG]
    exact zpow_le_zpow_right₀ h110 hem
  have hgT : (10 : ℚ) ^ k1 * (10 : ℚ) ^ (m - k1) = T := by
    rw [← hT, ← zpow_natCast, ← zpow_add₀ h10]
    congr 1
    ring
  have hgT1 : (10 : ℚ) ^ (k1 - 1) * (10 : ℚ) ^ (m - k1) = T / 10 := by
    rw [← hT1, ← zpow_natCast, ← zpow_add₀ h10]
    congr 1
    have : ((k1 - 1 : ℕ) : ℤ) = (k1 : ℤ) - 1 := by omega
    rw [this]
    ring
  generalize hg : (10 : ℚ) ^ (m - (k1 : ℤ)) = g at *
  have hgpos : 0 < g := by rw [← hg]; positivity
  have hlo1 : ((10 : ℤ) ^ (k1 - 1)) ≤ ⌊x / g⌋ := by
    apply Int.le_floor.mpr
    push_cast
    rw [le_div_iff₀ hgpos, hgT1]
    exact hm1
  have hlo2 : ⌊x / g⌋ < (10 : ℤ) ^ k1 := by
    apply Int.floor_lt.mpr
    push_cast
    rw [div_lt_iff₀ hgpos, hgT]
    exact hm2
  have hs1 : (10 : ℤ) ^ (k1 - 1) ≤ s := by
    rcases hs with hs | hs <;> omega
  have hs2 : s ≤ (10 : ℤ) ^ k1 := by
    rcases hs with hs | hs <;> omega
  have hs1q : (10 : ℚ) ^ (k1 - 1) ≤ (s : ℚ) := by exact_mod_cast hs1
  have hs2q : (s : ℚ) ≤ (10 : ℚ) ^ k1 := by exact_mod_cast hs2
  generalize hV : (s : ℚ) * g = V at *
  have hV1 : T / 10 ≤ V := by
    rw [← hgT1, ← hV]
    exact mul_le_mul_of_nonneg_right hs1q hgpos.le
  have hV2 : V ≤ T := by
    rw [← hgT, ← hV]
    exact mul_le_mul_of_nonneg_right hs2q hgpos.le
  have hVpos : 0 < V := by linarith
  have hVabs : |V| = V := abs_of_pos hVpos
  obtain ⟨x2, hx2, hVe⟩ := toDouble_rel V
    (by
      rw [hVabs]
      have : (1 : ℚ) / 10 ^ 9 = 1 / 10 ^ 8 / 10 := by norm_num
      linarith)
    (by
      rw [hVabs]
      have : (10 : ℚ) ^ 7 ≤ 10 ^ 9 := by norm_num
      linarith)
  rw [hsr] at hx2
  cases hx2
  rw [hVabs] at hVe
  have hVT : V / 2 ^ 52 ≤ T / 2 ^ 52 := div_le_div_of_nonneg_right hV2 (by positivity)
  have hDT2 : D / 2 ^ 52 ≤ T * (1001 / 1000) / 2 ^ 52 :=
    div_le_div_of_nonneg_right hDT (by positivity)
  have hVD : |V - D| < G := by
    have h1 := (err_below_digit15 T hTpos).2
    have h2 : |V - D| ≤ |x - V| + |x - D| := by
      have : V - D = -(x - V) + (x - D) := by ring
      rw [this]
      calc |-(x - V) + (x - D)| ≤ |-(x - V)| + |x - D| := abs_add _ _
        _ = |x - V| + |x - D| := by rw [abs_neg]
    linarith
  -- both are multiples of `G`, hence equal
  obtain ⟨d, hd⟩ : ∃ d : ℕ, (d : ℤ) = m - e - k1 := ⟨(m - e - k1).toNat, Int.toNat_of_nonneg (by omega)⟩
  have haV : ((s * 10 ^ d : ℤ) : ℚ) * G = V := by
    rw [← hV, ← hG, ← hg]
    push_cast
    rw [mul_assoc, ← zpow_natCast, ← zpow_add₀ h10]
    congr 2
    rw [hd]
    ring
  have haj : s * 10 ^ d = j := by
    apply multiple_unique (s * 10 ^ d) j G hGpos
    rw [haV, hjD]
    exact hVD
  have hVeqD : V = D := by rw [← haV, haj, hjD]
  by_cases hc : s = (10 : ℤ) ^ k1
  · rw [if_pos hc] at hr
    rw [hr]
    simp only
    refine ⟨le_refl _, Nat.pow_lt_pow_right (by norm_num) (by omega), ?_⟩
    rw [← hVeqD, ← hV, hc, ← hg]
    push_cast
    rw [← zpow_natCast, ← zpow_natCast, ← zpow_add₀ h10, ← zpow_add₀ h10]
    congr 1
    have : ((k1 - 1 : ℕ) : ℤ) = (k1 : ℤ) - 1 := by omega
    rw [this]
    ring
  · rw [if_neg hc] at hr
    rw [hr]
    simp only
    have hs0 : 0 ≤ s := le_trans (by positivity) hs1
    have hsn : ((s.toNat : ℕ) : ℤ) = s := Int.toNat_of_nonneg hs0
    have hs3 : s < (10 : ℤ) ^ k1 := lt_of_le_of_ne hs2 hc
    refine ⟨?_, ?_, ?_⟩
    · have : ((10 ^ (k1 - 1) : ℕ) : ℤ) ≤ ((s.toNat : ℕ) : ℤ) := by
        rw [hsn]
        exact_mod_cast hs1
      exact_mod_cast this
    · have : ((s.toNat : ℕ) : ℤ) < ((10 ^ k1 : ℕ) : ℤ) := by
        rw [hsn]
        exact_mod_cast hs3
      exact_mod_cast this
    · have hsq : ((s.toNat : ℕ) : ℚ) = (s : ℚ) := by
        have := congrArg (Int.cast : ℤ → ℚ) hsn
        exact_mod_cast this
      rw [hsq, ← hVeqD, ← hV, ← hg]

/-- The digits `Number::toString` finds for the binary64 nearest to a decimal
`K / 10 ^ 8` of at most 15 significant digits denote that decimal. -/
theorem shortestFrom_decimal (K : ℕ) (x : ℚ) (hK1 : 1 ≤ K) (hK2 : K < 10 ^ 15)
    (hx : toDouble ((K : ℚ) / 10 ^ 8) = .fin x) :
    ∃ k s n, shortestFrom x 17 1 = (k, s, n) ∧ 1 ≤ k ∧ 10 ^ (k - 1) ≤ s ∧ s < 10 ^ k ∧
      (s : ℚ) * (10 : ℚ) ^ (n - (k : ℤ)) = (K : ℚ) / 10 ^ 8 := by
  have h10 : (10 : ℚ) ≠ 0 := by norm_num
  obtain ⟨hxpos, hxe, hmge, hmle, hDT⟩ := decimal_range K x hK1 hK2 hx
  obtain ⟨kmax, hkz⟩ : ∃ kmax : ℕ, (kmax : ℤ) = max 1 (decExp x + 8) :=
    ⟨(max 1 (decExp x + 8)).toNat, Int.toNat_of_nonneg (by omega)⟩
  have hk1 : 1 ≤ kmax := by omega
  have hk15 : kmax ≤ 15 := by omega
  have hjD : (((K : ℤ) * 10 ^ (-8 - (decExp x - kmax)).toNat : ℤ) : ℚ)
      * (10 : ℚ) ^ (decExp x - kmax) = (K : ℚ) / 10 ^ 8 := by
    push_cast
    have e1 : ((10 : ℚ) ^ (-8 - (decExp x - kmax)).toNat)
        = (10 : ℚ) ^ (-8 - (decExp x - kmax)) := by
      rw [← zpow_natCast, Int.toNat_of_nonneg (by omega)]
    rw [e1, mul_assoc, ← zpow_add₀ h10]
    have e2 : -8 - (decExp x - kmax) + (decExp x - kmax) = -8 := by ring
    rw [e2]
    norm_num
    ring
  have hmax := shortest_finds x _ (decExp x - kmax) _ kmax hxe hDT hx (by omega) hjD rfl
  obtain ⟨k1, r, hk1a, hk1b, hsh, hres⟩ := shortestFrom_found x kmax hmax 17 1 hk1 (by omega)
  obtain ⟨h1, h2, h3⟩ := shortest_exact x _ (decExp x - kmax) _ k1 r hxpos hxe hDT hmge hmle
    (by omega) hjD hk1a (by omega) hsh
  exact ⟨k1, r.1, r.2, hres, hk1a, h1, h2, h3⟩


/-- Digits followed by something that does not start with a digit: the digits
are what `takeWhile` takes and the rest is what `dropWhile` leaves. -/
theorem takeWhile_digits_append (ds rest : Str) (hds : ∀ c ∈ ds, c.isDigit = true)
    (hr : headDigit rest = false) :
    (ds ++ rest).takeWhile Char.isDigit = ds ∧ (ds ++ rest).dropWhile Char.isDigit = rest := by
  induction ds with
  | nil =>
    cases rest with
    | nil => simp
    | cons c t =>
      have hc : c.isDigit = false := hr
      simp [List.takeWhile_cons, List.dropWhile_cons, hc]
  | cons d t ih =>
    have hd : d.isDigit = true := hds d (List.mem_cons_self _ _)
    have ht := ih (fun c hc => hds c (List.mem_cons_of_mem _ hc))
    simp [List.takeWhile_cons, List.dropWhile_cons, hd, ht.1, ht.2]

/-- The digit loop of `digitsValue`, started from `acc`. -/
theorem digitsValue_foldl (ds : Str) (acc : Nat) :
    ds.foldl (fun n c => 10 * n + (c.toNat - 48)) acc = acc * 10 ^ ds.length + digitsValue ds := by
  induction ds generalizing acc with
  | nil => simp [digitsValue]
  | cons d t ih =>
    unfold digitsValue
    simp only [List.foldl_cons, List.length_cons]
    rw [ih, ih (10 * 0 + (d.toNat - 48))]
    ring

/-- The value of two digit strings put together. -/
theorem digitsValue_append (a b : Str) :
    digitsValue (a ++ b) = digitsValue a * 10 ^ b.length + digitsValue b := by
  unfold digitsValue
  rw [List.foldl_append, digitsValue_foldl]
  rfl

/-- A run of zeros has the value zero. -/
theorem digitsValue_zeros (n : Nat) : digitsValue (zeros n) = 0 := by
  induction n with
  | zero => rfl
  | succ n ih =>
    have : zeros (n + 1) = zeros n ++ ['0'] := by
      unfold zeros
      rw [List.replicate_succ']
    rw [this, digitsValue_append, ih]
    rfl

/-- A run of zeros consists of digits. -/
theorem zeros_all_digits (n : Nat) : ∀ c ∈ zeros n, c.isDigit = true := by
  intro c hc
  unfold zeros at hc
  rw [List.eq_of_mem_replicate hc]
  rfl

/-- The exponent suffix is read back as the exponent. -/
theorem scanExponent_expSuffix (e : Int) : scanExponent (expSuffix e) = (e, []) := by
  have hd := decDigits_all_digits e.natAbs
  have htw := takeWhile_digits_append (decDigits e.natAbs) [] hd rfl
  rw [List.append_nil] at htw
  have hne := decDigits_ne_nil e.natAbs
  unfold expSuffix scanExponent
  by_cases h : 0 ≤ e
  · simp only [if_pos h, true_or, if_true]
    rw [htw.1, htw.2, if_neg hne, digitsValue_decDigits]
    congr 1
    omega
  · simp only [if_neg h, true_or, if_true]
    rw [htw.1, htw.2, if_neg hne, digitsValue_decDigits]
    congr 1
    omega

/-- Nothing follows the end of the text. -/
theorem scanExponent_nil : scanExponent [] = (0, []) := rfl

/-- A text that starts with a digit does not start with `Infinity`. -/
theorem not_infinity_of_digits (ip rest : Str) (hne : ip ≠ [])
    (hip : ∀ c ∈ ip, c.isDigit = true) :
    "Infinity".toList.isPrefixOf (ip ++ rest) = false := by
  cases ip with
  | nil => exact absurd rfl hne
  | cons d t =>
    have hd : d.isDigit = true := hip d (List.mem_cons_self _ _)
    have hI : ('I' == d) = false := by
      have := (isDigit_facts d hd).2.2.2.1
      simpa [beq_eq_false_iff_ne] using this.symm
    show List.isPrefixOf ('I' :: _) (d :: (t ++ rest)) = false
    simp [List.isPrefixOf, hI]

/-- Reading digits followed by an optional exponent. -/
theorem scanUnsigned_integer (ip r2 : Str) (hne : ip ≠ [])
    (hip : ∀ c ∈ ip, c.isDigit = true) (hr : headDigit r2 = false)
    (hdot : ∀ t, r2 ≠ '.' :: t) :
    scanUnsigned (ip ++ r2) =
      some (.real ((digitsValue ip : ℚ) * pow10 ((scanExponent r2).1)), (scanExponent r2).2) := by
  have htw := takeWhile_digits_append ip r2 hip hr
  unfold scanUnsigned
  rw [not_infinity_of_digits ip r2 hne hip]
  simp only [Bool.false_eq_true, if_false, htw.1, htw.2]
  rw [if_neg (fun h => hne h.1)]
  simp

/-- Reading digits, a point, more digits and an optional exponent. -/
theorem scanUnsigned_fraction (ip fp r2 : Str) (hne : ip ≠ [])
    (hip : ∀ c ∈ ip, c.isDigit = true) (hfp : ∀ c ∈ fp, c.isDigit = true)
    (hr : headDigit r2 = false) :
    scanUnsigned (ip ++ '.' :: (fp ++ r2)) =
      some (.real ((digitsValue (ip ++ fp) : ℚ) * pow10 ((scanExponent r2).1 - fp.length)),
        (scanExponent r2).2) := by
  have htw := takeWhile_digits_append ip ('.' :: (fp ++ r2)) hip rfl
  have htf := takeWhile_digits_append fp r2 hfp hr
  unfold scanUnsigned
  rw [not_infinity_of_digits ip _ hne hip]
  simp only [Bool.false_eq_true, if_false, htw.1, htw.2, htf.1, htf.2]
  rw [if_neg (fun h => hne h.1)]


/-- The exponent suffix starts with the letter `e`. -/
theorem expSuffix_head (e : Int) :
    headDigit (expSuffix e) = false ∧ ∀ t, expSuffix e ≠ '.' :: t := by
  constructor
  · rfl
  · intro t h
    unfold expSuffix at h
    injection h with h1 _
    exact absurd h1 (by decide)

/-- The text `Number::toString` builds from `k` digits `s` and the decimal
exponent `n` is read back as `s * 10 ^ (n - k)`. -/
theorem posToString_value (x : ℚ) (k s : ℕ) (n : ℤ) (h : shortestFrom x 17 1 = (k, s, n))
    (hk : 1 ≤ k) (hs1 : 10 ^ (k - 1) ≤ s) (hs2 : s < 10 ^ k) :
    scanUnsigned (posToString x) = some (.real ((s : ℚ) * (10 : ℚ) ^ (n - (k : ℤ))), []) := by
  have h10 : (10 : ℚ) ≠ 0 := by norm_num
  have hlen : (decDigits s).length = k := by
    have := decDigits_length (k - 1) s hs1 (by rw [Nat.sub_add_cancel hk]; exact hs2)
    omega
  have hdig := decDigits_all_digits s
  have hval := digitsValue_decDigits s
  have hne : decDigits s ≠ [] := decDigits_ne_nil s
  unfold posToString
  rw [h]
  simp only
  generalize hds : decDigits s = ds at *
  split_ifs with c1 c2 c3 c4
  · -- digits, then zeros
    have hall : ∀ c ∈ ds ++ zeros (n - k).toNat, c.isDigit = true := by
      intro c hc
      rcases List.mem_append.mp hc with hc | hc
      · exact hdig c hc
      · exact zeros_all_digits _ c hc
    have := scanUnsigned_integer (ds ++ zeros (n - k).toNat) [] (by simp [hne]) hall rfl
      (by intro t; exact List.noConfusion)
    rw [List.append_nil] at this
    rw [this, scanExponent_nil, digitsValue_append, digitsValue_zeros, hval, pow10_eq]
    simp only [zeros, List.length_replicate, add_zero, zpow_zero, mul_one]
    push_cast
    congr 3
    rw [← zpow_natCast, Int.toNat_of_nonneg (by omega)]
  · -- a point inside the digits
    have hn : n.toNat < k := by omega
    have hn0 : 0 < n.toNat := by omega
    have hipne : ds.take n.toNat ≠ [] := by
      intro hc
      have := congrArg List.length hc
      rw [List.length_take, hlen] at this
      simp at this
      omega
    have := scanUnsigned_fraction (ds.take n.toNat) (ds.drop n.toNat) [] hipne
      (fun c hc => hdig c (List.mem_of_mem_take hc))
      (fun c hc => hdig c (List.mem_of_mem_drop hc)) rfl
    rw [List.append_nil] at this
    rw [this, scanExponent_nil, List.take_append_drop, hval, pow10_eq, List.length_drop, hlen]
    have e : ((0 : ℤ) - ((k - n.toNat : ℕ) : ℤ)) = n - k := by omega
    simp only [e]
  · -- zeros between the point and the digits
    have hall : ∀ c ∈ zeros (-n).toNat ++ ds, c.isDigit = true := by
      intro c hc
      rcases List.mem_append.mp hc with hc | hc
      · exact zeros_all_digits _ c hc
      · exact hdig c hc
    have := scanUnsigned_fraction ['0'] (zeros (-n).toNat ++ ds) [] (by simp)
      (by intro c hc; rw [List.mem_singleton.mp hc]; rfl) hall rfl
    rw [List.append_nil] at this
    have e : '0' :: '.' :: (zeros (-n).toNat ++ ds) = ['0'] ++ '.' :: (zeros (-n).toNat ++ ds) :=
      rfl
    rw [e, this, scanExponent_nil, digitsValue_append, digitsValue_append, digitsValue_zeros,
      hval, pow10_eq]
    have e0 : digitsValue ['0'] = 0 := rfl
    rw [e0]
    simp only [zero_mul, zero_add, List.length_append, zeros, List.length_replicate, hlen]
    have e : ((0 : ℤ) - (((-n).toNat + k : ℕ) : ℤ)) = n - k := by omega
    rw [e]
  · -- one digit and an exponent
    have := scanUnsigned_integer ds (expSuffix (n - 1)) hne hdig (expSuffix_head _).1
      (expSuffix_head _).2
    rw [this, scanExponent_expSuffix, hval, pow10_eq, c4]
    simp
  · -- a point after the first digit and an exponent
    have hipne : ds.take 1 ≠ [] := by
      intro hc
      have := congrArg List.length hc
      rw [List.length_take, hlen] at this
      simp at this
      omega
    have := scanUnsigned_fraction (ds.take 1) (ds.drop 1) (expSuffix (n - 1)) hipne
      (fun c hc => hdig c (List.mem_of_mem_take hc))
      (fun c hc => hdig c (List.mem_of_mem_drop hc)) (expSuffix_head _).1
    rw [this, scanExponent_expSuffix, List.take_append_drop, hval, pow10_eq, List.length_drop,
      hlen]
    have e : (n - 1 - ((k - 1 : ℕ) : ℤ)) = n - k := by omega
    simp only [e]


/-- A numeral that denotes `p` is read by `parseFloat` as the binary64 nearest
to `p`. -/
theorem parseFloat_of_numeralValue (s : Str) (p : ℚ) (h : numeralValue s = some p) :
    parseFloat s = toDouble p := by
  unfold numeralValue at h
  unfold parseFloat
  cases hsc : scanDecimal (s.dropWhile isWhiteSpace) with
  | none =>
    rw [hsc] at h
    exact absurd h (by simp)
  | some r =>
    obtain ⟨neg, mv, rest⟩ := r
    rw [hsc] at h
    cases mv with
    | infinity => exact absurd h (by simp)
    | real q =>
      simp only [Option.some.injEq] at h
      subst h
      cases neg with
      | false => simp [MV.toNumber]
      | true => simp [MV.toNumber, toDouble_neg]

/-- The value of the text of a positive Number, from the value of its digits. -/
theorem numeralValue_posToString (x v : ℚ)
    (h : scanUnsigned (posToString x) = some (.real v, [])) :
    numeralValue (posToString x) = some v ∧ numeralValue ('-' :: posToString x) = some (-v) := by
  have hp := posToString_headDigit x
  cases hs : posToString x with
  | nil => simp [hs, headDigit] at hp
  | cons d t =>
    rw [hs] at hp h
    have hd : d.isDigit = true := hp
    have hf := isDigit_facts d hd
    constructor
    · unfold numeralValue
      rw [List.dropWhile_cons_of_neg (by simp [hf.1]), scanDecimal_cons d t hf.2.1 hf.2.2.1, h]
      simp
    · unfold numeralValue
      have hm : isWhiteSpace '-' = false := by decide
      rw [List.dropWhile_cons_of_neg (by simp [hm])]
      show (match (scanUnsigned (d :: t)).map fun p => (true, p.1, p.2) with
        | some (neg, .real q, _) => some (if neg then -q else q)
        | _ => none) = some (-v)
      rw [h]
      simp

/-- Printing the binary64 nearest to a decimal `K / 10 ^ 8` of at most 15
significant digits gives a text that denotes that decimal. -/
theorem numeralValue_toString_decimal (K : ℤ) (hK : |K| < 10 ^ 15) :
    numeralValue (toDouble ((K : ℚ) / 10 ^ 8)).toString = some ((K : ℚ) / 10 ^ 8) := by
  have hpos : ∀ N : ℕ, 1 ≤ N → N < 10 ^ 15 →
      ∃ x, 0 < x ∧ toDouble ((N : ℚ) / 10 ^ 8) = .fin x ∧
        scanUnsigned (posToString x) = some (.real ((N : ℚ) / 10 ^ 8), []) := by
    intro N h1 h2
    have hb : |(N : ℚ) / 10 ^ 8| ≤ 2 ^ 1000 := by
      have hN : (N : ℚ) ≤ 10 ^ 15 := by exact_mod_cast h2.le
      have h0 : (0 : ℚ) ≤ (N : ℚ) / 10 ^ 8 := by positivity
      rw [abs_of_nonneg h0]
      have h3 : (N : ℚ) / 10 ^ 8 ≤ N := div_le_self (by positivity) (by norm_num)
      have h4 : (10 : ℚ) ^ 15 ≤ 2 ^ 50 := by norm_num
      have h5 : (2 : ℚ) ^ 50 ≤ 2 ^ 1000 := pow_le_pow_right₀ (by norm_num) (by norm_num)
      linarith
    obtain ⟨x, hx, _⟩ := toDouble_close _ hb
    obtain ⟨hxpos, _⟩ := decimal_range N x h1 h2 hx
    obtain ⟨k, s, n, hsf, hk, hs1, hs2, hv⟩ := shortestFrom_decimal N x h1 h2 hx
    refine ⟨x, hxpos, hx, ?_⟩
    rw [posToString_value x k s n hsf hk hs1 hs2, hv]
  rcases lt_trichotomy K 0 with hneg | hzero | hp
  · obtain ⟨N, hN⟩ : ∃ N : ℕ, (N : ℤ) = -K := ⟨(-K).toNat, Int.toNat_of_nonneg (by omega)⟩
    have hKN : K = -(N : ℤ) := by omega
    have habs : |K| = (N : ℤ) := by rw [abs_of_neg hneg]; omega
    rw [habs] at hK
    obtain ⟨x, hxpos, hx, hsc⟩ := hpos N (by omega) (by exact_mod_cast hK)
    have e : ((K : ℚ) / 10 ^ 8) = -((N : ℚ) / 10 ^ 8) := by
      rw [hKN]
      push_cast
      ring
    rw [e, toDouble_neg, hx]
    have hts : (Number.fin x).neg.toString = '-' :: posToString x := by
      simp only [Number.neg, Number.toString]
      rw [if_neg (by linarith), if_pos (by linarith), neg_neg]
    rw [hts]
    exact (numeralValue_posToString x _ hsc).2
  · subst hzero
    have e : (((0 : ℤ) : ℚ) / 10 ^ 8) = 0 := by simp
    rw [e]
    have h0 : toDouble 0 = .fin 0 := by simp [toDouble]
    rw [h0]
    decide!
  · obtain ⟨N, hN⟩ : ∃ N : ℕ, (N : ℤ) = K := ⟨K.toNat, Int.toNat_of_nonneg (by omega)⟩
    have habs : |K| = (N : ℤ) := by rw [abs_of_pos hp]; omega
    rw [habs] at hK
    obtain ⟨x, hxpos, hx, hsc⟩ := hpos N (by omega) (by exact_mod_cast hK)
    have e : ((K : ℚ) / 10 ^ 8) = ((N : ℚ) / 10 ^ 8) := by
      rw [← hN]
      push_cast
      ring
    rw [e, hx]
    have hts : (Number.fin x).toString = posToString x := by
      simp only [Number.toString]
      rw [if_neg (by linarith), if_neg (by linarith)]
    rw [hts]
    exact (numeralValue_posToString x _ hsc).1


/-- Rounding a real of magnitude at most `10 ^ 15` to binary64 gives a finite
value within `|t| / 2 ^ 53 + 10 ^ (-60)` of it. -/
theorem toDouble_abs (t : ℚ) (h : |t| ≤ 10 ^ 15) :
    ∃ x, toDouble t = .fin x ∧ |x - t| ≤ |t| / 2 ^ 53 + 1 / 10 ^ 60 := by
  have hb : |t| ≤ 2 ^ 1000 := by
    have h1 : (10 : ℚ) ^ 15 ≤ 2 ^ 50 := by norm_num
    have h2 : (2 : ℚ) ^ 50 ≤ 2 ^ 1000 := pow_le_pow_right₀ (by norm_num) (by norm_num)
    linarith
  obtain ⟨x, hx, he⟩ := toDouble_close t hb
  refine ⟨x, hx, he.trans ?_⟩
  have h1 : (10 : ℚ) ^ 60 ≤ 2 ^ 200 := by norm_num
  have h2 : (2 : ℚ) ^ 200 ≤ 2 ^ 1075 := pow_le_pow_right₀ (by norm_num) (by norm_num)
  have h3 : (1 : ℚ) / 2 ^ 1075 ≤ 1 / 10 ^ 60 :=
    one_div_le_one_div_of_le (by positivity) (h1.trans h2)
  linarith

/-- The sum of two operands rounded to binary64 is close to the exact sum. -/
theorem add_close (p q P Q : ℚ) (hp : |p| ≤ 10 ^ 6) (hq : |q| ≤ 10 ^ 6)
    (hP : |P - p| ≤ |p| / 2 ^ 53 + 1 / 10 ^ 60) (hQ : |Q - q| ≤ |q| / 2 ^ 53 + 1 / 10 ^ 60) :
    |P + Q - (p + q)| ≤ 3 * 10 ^ 6 / 2 ^ 53 := by
  have e : P + Q - (p + q) = (P - p) + (Q - q) := by ring
  have h1 : |p| / 2 ^ 53 ≤ 10 ^ 6 / 2 ^ 53 := div_le_div_of_nonneg_right hp (by positivity)
  have h2 : |q| / 2 ^ 53 ≤ 10 ^ 6 / 2 ^ 53 := div_le_div_of_nonneg_right hq (by positivity)
  have h3 : (2 : ℚ) * (1 / 10 ^ 60) ≤ 10 ^ 6 / 2 ^ 53 := by norm_num
  have h4 : (3 : ℚ) * 10 ^ 6 / 2 ^ 53 = 3 * (10 ^ 6 / 2 ^ 53) := by ring
  rw [e, h4]
  calc |(P - p) + (Q - q)| ≤ |P - p| + |Q - q| := abs_add _ _
    _ ≤ 3 * (10 ^ 6 / 2 ^ 53) := by linarith

/-- The product of two operands rounded to binary64 is close to the exact
product. -/
theorem mul_close (p q P Q : ℚ) (hp : |p| ≤ 10 ^ 6) (hq : |q| ≤ 10 ^ 6)
    (hr : |p * q| ≤ 10 ^ 6)
    (hP : |P - p| ≤ |p| / 2 ^ 53 + 1 / 10 ^ 60) (hQ : |Q - q| ≤ |q| / 2 ^ 53 + 1 / 10 ^ 60) :
    |P * Q - p * q| ≤ 3 * 10 ^ 6 / 2 ^ 53 := by
  have e : P * Q - p * q = (P - p) * q + p * (Q - q) + (P - p) * (Q - q) := by ring
  have hp0 := abs_nonneg p
  have hq0 := abs_nonneg q
  have ha0 := abs_nonneg (P - p)
  have hb0 := abs_nonneg (Q - q)
  have hpq : |p| * |q| ≤ 10 ^ 6 := by rw [← abs_mul]; exact hr
  have h1 : |(P - p) * q| ≤ 10 ^ 6 / 2 ^ 53 + 1 / 10 ^ 54 := by
    rw [abs_mul]
    calc |P - p| * |q| ≤ (|p| / 2 ^ 53 + 1 / 10 ^ 60) * |q| :=
          mul_le_mul_of_nonneg_right hP hq0
      _ = |p| * |q| / 2 ^ 53 + 1 / 10 ^ 60 * |q| := by ring
      _ ≤ 10 ^ 6 / 2 ^ 53 + 1 / 10 ^ 60 * 10 ^ 6 := by
          have := div_le_div_of_nonneg_right hpq (by positivity : (0 : ℚ) ≤ 2 ^ 53)
          have := mul_le_mul_of_nonneg_left hq (by positivity : (0 : ℚ) ≤ 1 / 10 ^ 60)
          linarith
      _ = 10 ^ 6 / 2 ^ 53 + 1 / 10 ^ 54 := by norm_num
  have h2 : |p * (Q - q)| ≤ 10 ^ 6 / 2 ^ 53 + 1 / 10 ^ 54 := by
    rw [abs_mul]
    calc |p| * |Q - q| ≤ |p| * (|q| / 2 ^ 53 + 1 / 10 ^ 60) :=
          mul_le_mul_of_nonneg_left hQ hp0
      _ = |p| * |q| / 2 ^ 53 + 1 / 10 ^ 60 * |p| := by ring
      _ ≤ 10 ^ 6 / 2 ^ 53 + 1 / 10 ^ 60 * 10 ^ 6 := by
          have := div_le_div_of_nonneg_right hpq (by positivity : (0 : ℚ) ≤ 2 ^ 53)
          have := mul_le_mul_of_nonneg_left hp (by positivity : (0 : ℚ) ≤ 1 / 10 ^ 60)
          linarith
      _ = 10 ^ 6 / 2 ^ 53 + 1 / 10 ^ 54 := by norm_num
  have ha9 : |P - p| ≤ 1 / 10 ^ 9 := by
    have h1 : |p| / 2 ^ 53 ≤ 10 ^ 6 / 2 ^ 53 := div_le_div_of_nonneg_right hp (by positivity)
    have h2 : (10 : ℚ) ^ 6 / 2 ^ 53 + 1 / 10 ^ 60 ≤ 1 / 10 ^ 9 := by norm_num
    linarith
  have hb9 : |Q - q| ≤ 1 / 10 ^ 9 := by
    have h1 : |q| / 2 ^ 53 ≤ 10 ^ 6 / 2 ^ 53 := div_le_div_of_nonneg_right hq (by positivity)
    have h2 : (10 : ℚ) ^ 6 / 2 ^ 53 + 1 / 10 ^ 60 ≤ 1 / 10 ^ 9 := by norm_num
    linarith
  have h3 : |(P - p) * (Q - q)| ≤ 1 / 10 ^ 18 := by
    rw [abs_mul]
    calc |P - p| * |Q - q| ≤ 1 / 10 ^ 9 * (1 / 10 ^ 9) :=
          mul_le_mul ha9 hb9 hb0 (by positivity)
      _ = 1 / 10 ^ 18 := by norm_num
  have h4 : (2 : ℚ) * (1 / 10 ^ 54) + 1 / 10 ^ 18 ≤ 10 ^ 6 / 2 ^ 53 := by norm_num
  have h5 : (3 : ℚ) * 10 ^ 6 / 2 ^ 53 = 3 * (10 ^ 6 / 2 ^ 53) := by ring
  rw [e, h5]
  calc |(P - p) * q + p * (Q - q) + (P - p) * (Q - q)|
      ≤ |(P - p) * q + p * (Q - q)| + |(P - p) * (Q - q)| := abs_add _ _
    _ ≤ |(P - p) * q| + |p * (Q - q)| + |(P - p) * (Q - q)| := by
        have := abs_add ((P - p) * q) (p * (Q - q))
        linarith
    _ ≤ 3 * (10 ^ 6 / 2 ^ 53) := by linarith

/-- The quotient of two operands rounded to binary64 is close to the exact
quotient, and the rounded divisor is not zero. -/
theorem div_close (p q P Q : ℚ) (hp : |p| ≤ 10 ^ 6) (hq : |q| ≤ 10 ^ 6)
    (hq1 : 1 / 10 ^ 15 ≤ |q|) (hr : |p / q| ≤ 10 ^ 6)
    (hP : |P - p| ≤ |p| / 2 ^ 53 + 1 / 10 ^ 60) (hQ : |Q - q| ≤ |q| / 2 ^ 53 + 1 / 10 ^ 60) :
    Q ≠ 0 ∧ |P / Q - p / q| ≤ 3 * 10 ^ 6 / 2 ^ 53 := by
  have hqpos : 0 < |q| := lt_of_lt_of_le (by positivity) hq1
  have hq0 : q ≠ 0 := abs_pos.mp hqpos
  have hp0 := abs_nonneg p
  have hb : |Q - q| ≤ |q| / 10 := by
    have h1 : |q| / 2 ^ 53 ≤ |q| / 20 :=
      div_le_div_of_nonneg_left hqpos.le (by norm_num) (by norm_num)
    have h2 : (1 : ℚ) / 10 ^ 60 ≤ 1 / 10 ^ 15 / 20 := by norm_num
    have h3 : (1 : ℚ) / 10 ^ 15 / 20 ≤ |q| / 20 :=
      div_le_div_of_nonneg_right hq1 (by norm_num)
    linarith
  have hQlow : 9 / 10 * |q| ≤ |Q| := by
    have h1 : |q| ≤ |Q| + |Q - q| := by
      have e : q = Q + -(Q - q) := by ring
      calc |q| = |Q + -(Q - q)| := by rw [← e]
        _ ≤ |Q| + |-(Q - q)| := abs_add _ _
        _ = |Q| + |Q - q| := by rw [abs_neg]
    linarith
  have hQpos : 0 < |Q| := by linarith
  have hQ0 : Q ≠ 0 := abs_pos.mp hQpos
  refine ⟨hQ0, ?_⟩
  -- the square of the divisor
  have hB2 : 1 / 10 ^ 30 ≤ |q| * |q| := by
    calc (1 : ℚ) / 10 ^ 30 = 1 / 10 ^ 15 * (1 / 10 ^ 15) := by norm_num
      _ ≤ |q| * |q| := mul_le_mul hq1 hq1 (by positivity) hqpos.le
  have hAB : |p| * |q| ≤ 10 ^ 6 * (|q| * |q|) := by
    have e : |p| = |p / q| * |q| := by
      rw [← abs_mul, div_mul_cancel₀ p hq0]
    calc |p| * |q| = |p / q| * (|q| * |q|) := by rw [e]; ring
      _ ≤ 10 ^ 6 * (|q| * |q|) := mul_le_mul_of_nonneg_right hr (by positivity)
  have hden : 9 / 10 * (|q| * |q|) ≤ |Q * q| := by
    rw [abs_mul]
    calc 9 / 10 * (|q| * |q|) = 9 / 10 * |q| * |q| := by ring
      _ ≤ |Q| * |q| := mul_le_mul_of_nonneg_right hQlow hqpos.le
  have hnum : |(P - p) * q - p * (Q - q)| ≤ 2 * (|p| * |q|) / 2 ^ 53 + 2 * 10 ^ 6 / 10 ^ 60 := by
    have h1 : |(P - p) * q| ≤ |p| * |q| / 2 ^ 53 + 10 ^ 6 / 10 ^ 60 := by
      rw [abs_mul]
      calc |P - p| * |q| ≤ (|p| / 2 ^ 53 + 1 / 10 ^ 60) * |q| :=
            mul_le_mul_of_nonneg_right hP hqpos.le
        _ = |p| * |q| / 2 ^ 53 + 1 / 10 ^ 60 * |q| := by ring
        _ ≤ |p| * |q| / 2 ^ 53 + 10 ^ 6 / 10 ^ 60 := by
            have := mul_le_mul_of_nonneg_left hq (by positivity : (0 : ℚ) ≤ 1 / 10 ^ 60)
            have e : (1 : ℚ) / 10 ^ 60 * 10 ^ 6 = 10 ^ 6 / 10 ^ 60 := by ring
            linarith
    have h2 : |p * (Q - q)| ≤ |p| * |q| / 2 ^ 53 + 10 ^ 6 / 10 ^ 60 := by
      rw [abs_mul]
      calc |p| * |Q - q| ≤ |p| * (|q| / 2 ^ 53 + 1 / 10 ^ 60) :=
            mul_le_mul_of_nonneg_left hQ hp0
        _ = |p| * |q| / 2 ^ 53 + 1 / 10 ^ 60 * |p| := by ring
        _ ≤ |p| * |q| / 2 ^ 53 + 10 ^ 6 / 10 ^ 60 := by
            have := mul_le_mul_of_nonneg_left hp (by positivity : (0 : ℚ) ≤ 1 / 10 ^ 60)
            have e : (1 : ℚ) / 10 ^ 60 * 10 ^ 6 = 10 ^ 6 / 10 ^ 60 := by ring
            linarith
    have h3 : |(P - p) * q - p * (Q - q)| ≤ |(P - p) * q| + |p * (Q - q)| := abs_sub _ _
    linarith
  have e : P / Q - p / q = ((P - p) * q - p * (Q - q)) / (Q * q) := by
    field_simp
    ring
  have hdpos : 0 < |Q * q| := abs_pos.mpr (mul_ne_zero hQ0 hq0)
  rw [e, abs_div, div_le_iff₀ hdpos]
  -- everything in terms of the square of the divisor
  generalize |q| * |q| = B2 at hB2 hAB hden
  generalize |p| * |q| = AB at hAB hnum
  have h1 : 2 * AB / 2 ^ 53 ≤ 2 * (10 ^ 6 * B2) / 2 ^ 53 :=
    div_le_div_of_nonneg_right (by linarith) (by positivity)
  have h2 : (2 : ℚ) * 10 ^ 6 / 10 ^ 60 ≤ 7 / 10 * (10 ^ 6 * (1 / 10 ^ 30)) / 2 ^ 53 := by norm_num
  have h3 : 7 / 10 * (10 ^ 6 * (1 / 10 ^ 30)) / 2 ^ 53 ≤ 7 / 10 * (10 ^ 6 * B2) / 2 ^ 53 :=
    div_le_div_of_nonneg_right (by linarith) (by positivity)
  have h4 : 3 * 10 ^ 6 / 2 ^ 53 * (9 / 10 * B2) ≤ 3 * 10 ^ 6 / 2 ^ 53 * |Q * q| :=
    mul_le_mul_of_nonneg_left hden (by positivity)
  have h5 : 2 * (10 ^ 6 * B2) / 2 ^ 53 + 7 / 10 * (10 ^ 6 * B2) / 2 ^ 53
      = 3 * 10 ^ 6 / 2 ^ 53 * (9 / 10 * B2) := by ring
  linarith


/-- Away from a tie, an approximation within a tenth rounds like the exact
value. -/
theorem floor_half_stable (R y : ℚ) (hy : |y - R| < 1 / 10)
    (htie : 1 / 10 ≤ |R - ⌊R⌋ - 1 / 2|) : ⌊y + 1 / 2⌋ = ⌊R + 1 / 2⌋ := by
  obtain ⟨h1, h2⟩ := abs_lt.mp hy
  have hf1 := Int.floor_le R
  have hf2 := Int.lt_floor_add_one R
  rcases le_abs.mp htie with h | h
  · have e1 : ⌊R + 1 / 2⌋ = ⌊R⌋ + 1 := by
      rw [Int.floor_eq_iff]
      push_cast
      constructor <;> linarith
    have e2 : ⌊y + 1 / 2⌋ = ⌊R⌋ + 1 := by
      rw [Int.floor_eq_iff]
      push_cast
      constructor <;> linarith
    rw [e1, e2]
  · have e1 : ⌊R + 1 / 2⌋ = ⌊R⌋ := by
      rw [Int.floor_eq_iff]
      constructor <;> linarith
    have e2 : ⌊y + 1 / 2⌋ = ⌊R⌋ := by
      rw [Int.floor_eq_iff]
      constructor <;> linarith
    rw [e1, e2]

/-- The binary64 result, scaled by `10 ^ 8` in binary64, stays within a tenth
of the exact result scaled by `10 ^ 8`. -/
theorem scaled_close (S r : ℚ) (hr : |r| ≤ 10 ^ 6) (hS : |S - r| ≤ 3 * 10 ^ 6 / 2 ^ 53) :
    ∃ x y, toDouble S = .fin x ∧ toDouble (x * 100000000) = .fin y ∧
      |y - r * 10 ^ 8| < 1 / 10 := by
  have hγ : (3 : ℚ) * 10 ^ 6 / 2 ^ 53 ≤ 1 / 10 ^ 9 := by norm_num
  have tri : ∀ a b : ℚ, |a| ≤ |b| + |a - b| := by
    intro a b
    have e : a = b + (a - b) := by ring
    calc |a| = |b + (a - b)| := by rw [← e]
      _ ≤ |b| + |a - b| := abs_add _ _
  have hSm : |S| ≤ 10 ^ 6 + 1 / 10 ^ 9 := by
    have := tri S r
    linarith
  obtain ⟨x, hx, hxe⟩ := toDouble_abs S (by
    have : (10 : ℚ) ^ 6 + 1 / 10 ^ 9 ≤ 10 ^ 15 := by norm_num
    linarith)
  have hxS : |x - S| ≤ 2 * 10 ^ 6 / 2 ^ 53 := by
    have h1 : |S| / 2 ^ 53 ≤ (10 ^ 6 + 1 / 10 ^ 9) / 2 ^ 53 :=
      div_le_div_of_nonneg_right hSm (by positivity)
    have h2 : ((10 : ℚ) ^ 6 + 1 / 10 ^ 9) / 2 ^ 53 + 1 / 10 ^ 60 ≤ 2 * 10 ^ 6 / 2 ^ 53 := by
      norm_num
    linarith
  have hxr : |x - r| ≤ 5 * 10 ^ 6 / 2 ^ 53 := by
    have e : x - r = (x - S) + (S - r) := by ring
    have h1 : |x - r| ≤ |x - S| + |S - r| := by
      rw [e]
      exact abs_add _ _
    have h2 : (2 : ℚ) * 10 ^ 6 / 2 ^ 53 + 3 * 10 ^ 6 / 2 ^ 53 = 5 * 10 ^ 6 / 2 ^ 53 := by ring
    linarith
  have hxm : |x| ≤ 10 ^ 6 + 1 / 10 ^ 9 := by
    have := tri x r
    have h2 : (5 : ℚ) * 10 ^ 6 / 2 ^ 53 ≤ 1 / 10 ^ 9 := by norm_num
    linarith
  have hxs : |x * 100000000| ≤ 10 ^ 14 + 1 / 10 := by
    rw [abs_mul]
    have h8 : |(100000000 : ℚ)| = 100000000 := abs_of_pos (by norm_num)
    rw [h8]
    have := mul_le_mul_of_nonneg_right hxm (by norm_num : (0 : ℚ) ≤ 100000000)
    have e : ((10 : ℚ) ^ 6 + 1 / 10 ^ 9) * 100000000 = 10 ^ 14 + 1 / 10 := by norm_num
    linarith
  obtain ⟨y, hy, hye⟩ := toDouble_abs (x * 100000000) (by
    have : (10 : ℚ) ^ 14 + 1 / 10 ≤ 10 ^ 15 := by norm_num
    linarith)
  refine ⟨x, y, hx, hy, ?_⟩
  have h1 : |x * 100000000| / 2 ^ 53 ≤ (10 ^ 14 + 1 / 10) / 2 ^ 53 :=
    div_le_div_of_nonneg_right hxs (by positivity)
  have h2 : |x * 100000000 - r * 10 ^ 8| ≤ 5 * 10 ^ 6 / 2 ^ 53 * 10 ^ 8 := by
    have e : x * 100000000 - r * 10 ^ 8 = (x - r) * 10 ^ 8 := by ring
    rw [e, abs_mul, abs_of_pos (by positivity : (0 : ℚ) < 10 ^ 8)]
    exact mul_le_mul_of_nonneg_right hxr (by positivity)
  have h3 : |y - r * 10 ^ 8| ≤ |y - x * 100000000| + |x * 100000000 - r * 10 ^ 8| := by
    have e : y - r * 10 ^ 8 = (y - x * 100000000) + (x * 100000000 - r * 10 ^ 8) := by ring
    rw [e]
    exact abs_add _ _
  have h4 : ((10 : ℚ) ^ 14 + 1 / 10) / 2 ^ 53 + 1 / 10 ^ 60 + 5 * 10 ^ 6 / 2 ^ 53 * 10 ^ 8
      < 1 / 10 := by norm_num
  calc |y - r * 10 ^ 8| ≤ |y - x * 100000000| + |x * 100000000 - r * 10 ^ 8| := h3
    _ ≤ (|x * 100000000| / 2 ^ 53 + 1 / 10 ^ 60) + 5 * 10 ^ 6 / 2 ^ 53 * 10 ^ 8 :=
        add_le_add hye h2
    _ ≤ ((10 ^ 14 + 1 / 10) / 2 ^ 53 + 1 / 10 ^ 60) + 5 * 10 ^ 6 / 2 ^ 53 * 10 ^ 8 :=
        add_le_add (add_le_add h1 (le_refl _)) (le_refl _)
    _ < 1 / 10 := h4

end JS

namespace Calculator

/-- Exact rounding also fails at a tie: `0.000000015 + 0` leaves "1e-8", while
the exact sum, which lies half-way between two multiples of `10 ^ (-8)`, rounds
to `2 / 100000000`. -/
theorem exact_rounding_fails_at_tie :
    numeralValue "0.000000015".toList = some (15 / 1000000000) ∧
    numeralValue ['0'] = some 0 ∧
    (calculate ⟨['0'], "0.000000015".toList, some ['+'], false⟩).state.currentOperand
      = "1e-8".toList ∧
    numeralValue "1e-8".toList = some (1 / 100000000) ∧
    roundTo8 (Operator.add.exact (15 / 1000000000) 0) = 2 / 100000000 ∧
    |Operator.add.exact (15 / 1000000000) 0 * 10 ^ 8
      - ⌊Operator.add.exact (15 / 1000000000) 0 * 10 ^ 8⌋ - 1 / 2| = 0 :=
  ⟨by decide!, by decide!, by decide!, by decide!, by decide!, by decide!⟩

/-- The binary64 result of an operator key on two operands of moderate size is
finite, and, scaled by `10 ^ 8`, within a tenth of the scaled exact result. -/
theorem apply_close (op : Operator) (p q : ℚ) (hpm : |p| ≤ 10 ^ 6) (hqm : |q| ≤ 10 ^ 6)
    (hrm : |op.exact p q| ≤ 10 ^ 6) (hdiv : op = .divide → 1 / 10 ^ 15 ≤ |q|) :
    ∃ P Q x y, toDouble p = .fin P ∧ toDouble q = .fin Q ∧ (op = .divide → Q ≠ 0) ∧
      op.apply (.fin P) (.fin Q) = .fin x ∧ toDouble (x * 100000000) = .fin y ∧
      |y - op.exact p q * 10 ^ 8| < 1 / 10 := by
  have h15 : (10 : ℚ) ^ 6 ≤ 10 ^ 15 := by norm_num
  obtain ⟨P, hP, hPe⟩ := toDouble_abs p (hpm.trans h15)
  obtain ⟨Q, hQ, hQe⟩ := toDouble_abs q (hqm.trans h15)
  cases op with
  | add =>
    obtain ⟨x, y, hx, hy, hyr⟩ := scaled_close (P + Q) (p + q) hrm
      (add_close p q P Q hpm hqm hPe hQe)
    exact ⟨P, Q, x, y, hP, hQ, fun h => Operator.noConfusion h, hx, hy, hyr⟩
  | subtract =>
    have hqm2 : |-q| ≤ 10 ^ 6 := by rw [abs_neg]; exact hqm
    have hQe2 : |-Q - -q| ≤ |-q| / 2 ^ 53 + 1 / 10 ^ 60 := by
      have e : -Q - -q = -(Q - q) := by ring
      rw [e, abs_neg, abs_neg]
      exact hQe
    have hc := add_close p (-q) P (-Q) hpm hqm2 hPe hQe2
    have e1 : p + -q = p - q := by ring
    rw [e1] at hc
    obtain ⟨x, y, hx, hy, hyr⟩ := scaled_close (P + -Q) (p - q) hrm hc
    exact ⟨P, Q, x, y, hP, hQ, fun h => Operator.noConfusion h, hx, hy, hyr⟩
  | multiply =>
    obtain ⟨x, y, hx, hy, hyr⟩ := scaled_close (P * Q) (p * q) hrm
      (mul_close p q P Q hpm hqm hrm hPe hQe)
    exact ⟨P, Q, x, y, hP, hQ, fun h => Operator.noConfusion h, hx, hy, hyr⟩
  | divide =>
    obtain ⟨hQ0, hc⟩ := div_close p q P Q hpm hqm (hdiv rfl) hrm hPe hQe
    obtain ⟨x, y, hx, hy, hyr⟩ := scaled_close (P / Q) (p / q) hrm hc
    refine ⟨P, Q, x, y, hP, hQ, fun _ => hQ0, ?_, hy, hyr⟩
    show Number.div (.fin P) (.fin Q) = .fin x
    simp only [Number.div]
    rw [if_neg hQ0]
    exact hx

/-- C4, amended: for operands and an exact result of magnitude at most `10 ^ 6`
(in a division, a divisor of magnitude at least `10 ^ (-15)`), whose exact
result, in units of the eighth decimal place, has a fractional part at least a
tenth away from one half, the text `calculate()` leaves in `currentOperand`
denotes the exact value of `prev op cur` rounded to 8 decimal places. -/
theorem calculate_exact_within_limits (c : Calculator) (op : Operator) (p q : ℚ)
    (hop : c.operation = some op.symbol) (hrs : c.resetScreen = false)
    (hp : numeralValue c.previousOperand = some p)
    (hq : numeralValue c.currentOperand = some q)
    (hpm : |p| ≤ 10 ^ 6) (hqm : |q| ≤ 10 ^ 6) (hrm : |op.exact p q| ≤ 10 ^ 6)
    (hdiv : op = .divide → 1 / 10 ^ 15 ≤ |q|)
    (htie : 1 / 10 ≤ |op.exact p q * 10 ^ 8 - ⌊op.exact p q * 10 ^ 8⌋ - 1 / 2|) :
    numeralValue (calculate c).state.currentOperand = some (roundTo8 (op.exact p q)) := by
  obtain ⟨P, Q, x, y, hP, hQ, hQ0, hx, hy, hyr⟩ := apply_close op p q hpm hqm hrm hdiv
  have hpf : parseFloat c.previousOperand = .fin P := by
    rw [parseFloat_of_numeralValue _ p hp, hP]
  have hcf : parseFloat c.currentOperand = .fin Q := by
    rw [parseFloat_of_numeralValue _ q hq, hQ]
  have hsucc := calculate_of_success c op hop hrs (by rw [hpf]; rfl) (by rw [hcf]; rfl)
    (by
      rintro ⟨ho, hz⟩
      rw [hcf] at hz
      injection hz with hz
      exact hQ0 ho hz)
    (by rw [hpf, hcf, hx]; rfl)
  rw [hsucc, hpf, hcf, hx]
  simp only
  have hfl := floor_half_stable (op.exact p q * 10 ^ 8) y hyr htie
  have h8 : (100000000 : ℚ) ≠ 0 := by norm_num
  have hround : round8 (.fin x) = toDouble (((⌊op.exact p q * 10 ^ 8 + 1 / 2⌋ : ℤ) : ℚ) / 10 ^ 8) := by
    unfold round8
    simp only [Number.mul, hy, Math.round, Number.div]
    rw [if_neg h8, hfl]
    norm_num
  rw [hround]
  have hK : |(⌊op.exact p q * 10 ^ 8 + 1 / 2⌋ : ℤ)| < 10 ^ 15 := by
    have hR : |op.exact p q * 10 ^ 8| ≤ 10 ^ 14 := by
      rw [abs_mul, abs_of_pos (by positivity : (0 : ℚ) < 10 ^ 8)]
      have := mul_le_mul_of_nonneg_right hrm (by positivity : (0 : ℚ) ≤ 10 ^ 8)
      have e : (10 : ℚ) ^ 6 * 10 ^ 8 = 10 ^ 14 := by norm_num
      linarith
    obtain ⟨hR1, hR2⟩ := abs_le.mp hR
    rw [abs_lt]
    constructor
    · have : (-(10 : ℤ) ^ 15 + 1) ≤ ⌊op.exact p q * 10 ^ 8 + 1 / 2⌋ := by
        apply Int.le_floor.mpr
        push_cast
        have : (10 : ℚ) ^ 14 ≤ 10 ^ 15 - 1 := by norm_num
        linarith
      linarith
    · apply Int.floor_lt.mpr
      push_cast
      have : (10 : ℚ) ^ 14 + 1 / 2 < 10 ^ 15 := by norm_num
      linarith
  exact numeralValue_toString_decimal _ hK

/-- Witness for C4, amended: `0.1 + 0.2` leaves "0.3", which denotes the exact
sum `3 / 10`; `2 ÷ 3` leaves "0.66666667", the exact quotient rounded upwards
to 8 decimal places. -/
theorem calculate_exact_within_limits_witness :
    (numeralValue ['0', '.', '1'] = some (1 / 10) ∧
      numeralValue ['0', '.', '2'] = some (2 / 10) ∧
      roundTo8 (Operator.add.exact (1 / 10) (2 / 10)) = 3 / 10 ∧
      numeralValue (calculate ⟨['0', '.', '2'], ['0', '.', '1'], some ['+'],
        false⟩).state.currentOperand = some (3 / 10) ∧
      (calculate ⟨['0', '.', '2'], ['0', '.', '1'], some ['+'], false⟩).state.currentOperand
        = ['0', '.', '3']) ∧
    (roundTo8 (Operator.divide.exact 2 3) = 66666667 / 100000000 ∧
      numeralValue (calculate ⟨['3'], ['2'], some ['÷'], false⟩).state.currentOperand
        = some (66666667 / 100000000) ∧
      (calculate ⟨['3'], ['2'], some ['÷'], false⟩).state.currentOperand
        = "0.66666667".toList) :=
  ⟨⟨by decide!, by decide!, by decide!,
    (calculate_exact_within_limits ⟨['0', '.', '2'], ['0', '.', '1'], some ['+'], false⟩ .add
      (1 / 10) (2 / 10) rfl rfl (by decide!) (by decide!) (by decide!) (by decide!) (by decide!)
      (by decide) (by decide!)).trans (by decide!),
    by decide!⟩,
   ⟨by decide!,
    (calculate_exact_within_limits ⟨['3'], ['2'], some ['÷'], false⟩ .divide
      2 3 rfl rfl (by decide!) (by decide!) (by decide!) (by decide!) (by decide!)
      (by decide!) (by decide!)).trans (by decide!),
    by decide!⟩⟩

end Calculator
